import Mathlib

/-! TMC2209 UART driver (`TMC2209.c`)

A shallow embedding of the datagram encoder, the CRC routine, the three
register unions and the motion loops of `TMC2209.c`, followed by the theorems
that settle the specification's claims about them.

Conventions of the embedding

* `uint8_t`, `uint16_t`, `uint32_t` values are natural numbers; every place
  where C converts to a narrower unsigned type is an explicit `% 2 ^ w`.
* `int8_t`, `int32_t` values are integers; conversion to an unsigned type of
  width `w` is `Int.toNat (v % 2 ^ w)`.
* The serial link, the delays and `printf` are recorded, in program order, as
  a list of `Event`s kept in the machine state.
* The register unions are 32-bit words.  A bit-field of a union is the bit
  range the target ABI (arm-none-eabi, little endian) gives it: the fields of a
  struct are allocated from bit 0 upwards in declaration order, which is also
  what the comments of the declarations say (`Bit 4..0`, `Bit 12..8`,
  `Bit 19..16`).
-/

namespace TMC2209

/-! ## Constants -/

def TMC2209_SYNC_BIT : Nat := 0x05
def TMC2209_WRITE_BIT : Nat := 0x80

def ADDRESS_GCONF : Nat := 0x00
def ADRESS_IHOLD_IRUN : Nat := 0x10
def ADRESS_VACTUAL : Nat := 0x22
def ADRESS_CHOPCONF : Nat := 0x6C

/-- First enumerator of `enum slave_adress`. -/
def DRIVER_1 : Nat := 0

/-! ## Observable events and machine state -/

/-- Calls to the SDK primitives, in the order the program makes them. -/
inductive Event
  | uart_putc (c : Nat)
  | busy_wait_ms (ms : Nat)
  | sleep_ms (ms : Nat)
  | sleep_us (us : Nat)
  | printf (v : Int)
  deriving DecidableEq, Repr

/-- The three file-scope register unions (as 32-bit words) and the trace of
events emitted so far. -/
structure State where
  driver_current : Nat
  driver_config : Nat
  chopper_config : Nat
  out : List Event
  deriving DecidableEq, Repr

/-- Static storage is zero-initialised; nothing has been emitted yet. -/
def State.init : State :=
  { driver_current := 0, driver_config := 0, chopper_config := 0, out := [] }

/-! ## `calcCRC` -/

/-- Body of the inner `for` of `calcCRC`: consumes the low bit of
`currentByte`, returns the new `crc` and the shifted `currentByte`. -/
def calcCRC.body (crc currentByte : Nat) : Nat × Nat :=
  let crc :=
    if ((crc >>> 7) ^^^ (currentByte &&& 0x01)) ≠ 0 then
      ((crc <<< 1) ^^^ 0x07) % 256
    else
      (crc <<< 1) % 256
  let crc := crc &&& 0xff
  (crc, currentByte >>> 1)

/-- The loop `for (uint8_t j = 0; j < 8; j++)` of `calcCRC`, entered with
counter `j`. -/
def calcCRC.inner (j crc currentByte : Nat) : Nat :=
  if j < 8 then
    calcCRC.inner ((j + 1) % 256) (calcCRC.body crc currentByte).1
      (calcCRC.body crc currentByte).2
  else
    crc
termination_by 8 - j
decreasing_by omega

/-- The loop `for (uint8_t i = 0; i < len; i++)` of `calcCRC`, entered with
counter `i`.  `len` is a `uint8_t`, hence read as `len % 256`. -/
def calcCRC.outer (datagram : List Nat) (len : Nat) (i crc : Nat) : Nat :=
  if i < len % 256 then
    calcCRC.outer datagram len ((i + 1) % 256)
      (calcCRC.inner 0 crc (datagram.getD i 0))
  else
    crc
termination_by len % 256 - i
decreasing_by omega

/-- Function `uint8_t calcCRC(uint8_t datagram[], uint8_t len)`. -/
def calcCRC (datagram : List Nat) (len : Nat) : Nat :=
  calcCRC.outer datagram len 0 0

/-! ## `tmc_write` -/

/-- The array `frame` of `tmc_write` after the eight assignments.  The
parameter `frame` is the indeterminate content the automatic array has on
entry. -/
def tmc_write.frame (frame : List Nat) (regAdress value : Nat) : List Nat :=
  let len := 7
  let frame := frame.set 0 TMC2209_SYNC_BIT
  let frame := frame.set 1 DRIVER_1
  let frame := frame.set 2 ((regAdress ||| TMC2209_WRITE_BIT) % 256)
  let frame := frame.set 3 ((value >>> 24) % 256)
  let frame := frame.set 4 ((value >>> 16) % 256)
  let frame := frame.set 5 ((value >>> 8) % 256)
  let frame := frame.set 6 ((value >>> 0) % 256)
  let frame := frame.set 7 (calcCRC frame len)
  frame

/-- The loop `for (uint8_t i = 0; i <= len; i++) uart_putc(.., frame[i])` of
`tmc_write` (`len` is the local constant 7), entered with counter `i`. -/
def tmc_write.send (frame : List Nat) (i : Nat) (s : State) : State :=
  if i ≤ 7 then
    tmc_write.send frame ((i + 1) % 256)
      { s with out := s.out ++ [Event.uart_putc (frame.getD i 0)] }
  else
    s
termination_by 8 - i
decreasing_by omega

/-- Function `void tmc_write(uint8_t regAdress, uint32_t value)`.  The arguments are
converted to the parameter types on entry. -/
def tmc_write (regAdress value : Nat) (s : State) : State :=
  let regAdress := regAdress % 256
  let value := value % 2 ^ 32
  let frame := tmc_write.frame (List.replicate 8 0) regAdress value
  let s := tmc_write.send frame 0 s
  { s with out := s.out ++ [Event.busy_wait_ms 3] }

/-! ## Setters -/

/-- Function `void set_vactual(int32_t value)`: the signed argument is converted to the
`uint32_t` parameter of `tmc_write`, that is reduced modulo `2 ^ 32`. -/
def set_vactual (value : Int) (s : State) : State :=
  tmc_write ADRESS_VACTUAL (Int.toNat (value % 2 ^ 32)) s

/-- Read of the bit-field of `width` bits at bit offset `off` of the word `w`. -/
def bitfieldGet (off width w : Nat) : Nat :=
  (w >>> off) % 2 ^ width

/-- Assignment of `v` to the bit-field of `width` bits at bit offset `off` of
the 32-bit word `w`: `v` is converted to the field's width, the field's bits
are replaced, every other bit of `w` is kept. -/
def bitfieldSet (off width w v : Nat) : Nat :=
  (w &&& (0xFFFFFFFF ^^^ ((2 ^ width - 1) <<< off))) ||| ((v % 2 ^ width) <<< off)

/-- Bit offset of field `f` in a struct whose bit-fields are declared, in
order, as `decl` (name, width): the sum of the widths declared before it. -/
def fieldOffset {α : Type} [DecidableEq α] : List (α × Nat) → α → Nat
  | [], _ => 0
  | (g, w) :: rest, f => if g = f then 0 else w + fieldOffset rest f

/-- Declared width of field `f`. -/
def fieldWidth {α : Type} [DecidableEq α] : List (α × Nat) → α → Nat
  | [], _ => 0
  | (g, w) :: rest, f => if g = f then w else fieldWidth rest f

/-- Members of the struct of `union DriverCurrent`. -/
inductive DriverCurrentField
  | ihold | reserved_0 | irun | reserved_1 | iholddelay | reserved_2
  deriving DecidableEq, Repr

/-- Declaration of the struct of `union DriverCurrent`, in source order. -/
def DriverCurrent.decl : List (DriverCurrentField × Nat) :=
  [(.ihold, 5), (.reserved_0, 3), (.irun, 5), (.reserved_1, 3), (.iholddelay, 4),
   (.reserved_2, 12)]

def DriverCurrent.get (f : DriverCurrentField) (bytes : Nat) : Nat :=
  bitfieldGet (fieldOffset DriverCurrent.decl f) (fieldWidth DriverCurrent.decl f) bytes

def DriverCurrent.set (f : DriverCurrentField) (bytes v : Nat) : Nat :=
  bitfieldSet (fieldOffset DriverCurrent.decl f) (fieldWidth DriverCurrent.decl f) bytes v

/-- Members of the struct of `union GlobalConfig`. -/
inductive GlobalConfigField
  | i_scale_analog | internal_rsense | enable_spread_cycle | shaft | index_otpw
  | index_step | pdn_disable | mstep_reg_select | multistep_filt | test_mode | reserved
  deriving DecidableEq, Repr

/-- Declaration of the struct of `union GlobalConfig`, in source order. -/
def GlobalConfig.decl : List (GlobalConfigField × Nat) :=
  [(.i_scale_analog, 1), (.internal_rsense, 1), (.enable_spread_cycle, 1), (.shaft, 1),
   (.index_otpw, 1), (.index_step, 1), (.pdn_disable, 1), (.mstep_reg_select, 1),
   (.multistep_filt, 1), (.test_mode, 1), (.reserved, 22)]

def GlobalConfig.get (f : GlobalConfigField) (bytes : Nat) : Nat :=
  bitfieldGet (fieldOffset GlobalConfig.decl f) (fieldWidth GlobalConfig.decl f) bytes

def GlobalConfig.set (f : GlobalConfigField) (bytes v : Nat) : Nat :=
  bitfieldSet (fieldOffset GlobalConfig.decl f) (fieldWidth GlobalConfig.decl f) bytes v

/-- Members of the struct of `union ChopperConfig`. -/
inductive ChopperConfigField
  | toff | hstrt | hend | reserved_0 | tbl | vsense | reserved_1 | mres
  | interpolation | double_edge | diss2g | diss2vs
  deriving DecidableEq, Repr

/-- Declaration of the struct of `union ChopperConfig`, in source order. -/
def ChopperConfig.decl : List (ChopperConfigField × Nat) :=
  [(.toff, 4), (.hstrt, 3), (.hend, 4), (.reserved_0, 4), (.tbl, 2), (.vsense, 1),
   (.reserved_1, 6), (.mres, 4), (.interpolation, 1), (.double_edge, 1), (.diss2g, 1),
   (.diss2vs, 1)]

def ChopperConfig.get (f : ChopperConfigField) (bytes : Nat) : Nat :=
  bitfieldGet (fieldOffset ChopperConfig.decl f) (fieldWidth ChopperConfig.decl f) bytes

def ChopperConfig.set (f : ChopperConfigField) (bytes v : Nat) : Nat :=
  bitfieldSet (fieldOffset ChopperConfig.decl f) (fieldWidth ChopperConfig.decl f) bytes v

/-- Function `void set_ihold_irun(int8_t i_hold, uint8_t i_run, uint8_t i_hold_delay)`.
`i_hold` is signed; stored into an unsigned bit-field it is first converted to
`uint32_t` (modulo `2 ^ 32`), then cut to the field's width by the store. -/
def set_ihold_irun (i_hold : Int) (i_run i_hold_delay : Nat) (s : State) : State :=
  let i_run := i_run % 256
  let i_hold_delay := i_hold_delay % 256
  let s := { s with driver_current :=
    DriverCurrent.set .ihold s.driver_current (Int.toNat (i_hold % 2 ^ 32)) }
  let s := { s with driver_current := DriverCurrent.set .irun s.driver_current i_run }
  let s := { s with driver_current :=
    DriverCurrent.set .iholddelay s.driver_current i_hold_delay }
  tmc_write ADRESS_IHOLD_IRUN s.driver_current s

/-- Function `void set_direction(bool direction)`. -/
def set_direction (direction : Bool) (s : State) : State :=
  let s := { s with driver_config := GlobalConfig.set .shaft s.driver_config direction.toNat }
  tmc_write ADDRESS_GCONF s.driver_config s

/-- Function `void set_microstep_input(bool input)`. -/
def set_microstep_input (input : Bool) (s : State) : State :=
  let s := { s with driver_config :=
    GlobalConfig.set .mstep_reg_select s.driver_config input.toNat }
  tmc_write ADDRESS_GCONF s.driver_config s

/-- Function `void set_microstep_resolution(uint8_t resolution)`. -/
def set_microstep_resolution (resolution : Nat) (s : State) : State :=
  let resolution := resolution % 256
  let s := { s with chopper_config := ChopperConfig.set .mres s.chopper_config resolution }
  tmc_write ADRESS_CHOPCONF s.chopper_config s

/-! ## Motion loops

Each `while (true)` is modelled by the state reached after a given number of
passes through its body. -/

/-- Body of `while (true)` in `vact_gconf_control`, on the local `direction`
and the machine state. -/
def vact_gconf_control.body (p : Bool × State) : Bool × State :=
  let direction := p.1
  let s := set_direction direction p.2
  let s := set_vactual 1000 s
  let s := { s with out := s.out ++ [Event.sleep_ms 1000] }
  (!direction, s)

/-- State of `vact_gconf_control` after `passes` passes of its loop. -/
def vact_gconf_control (passes : Nat) (s : State) : State :=
  (vact_gconf_control.body^[passes] (true, s)).2

/-- Body of `while (true)` in `only_vact_control`. -/
def only_vact_control.body (s : State) : State :=
  let s := set_vactual 1000 s
  let s := { s with out := s.out ++ [Event.sleep_ms 1000] }
  let s := set_vactual (-1000) s
  let s := { s with out := s.out ++ [Event.sleep_ms 1000] }
  s

/-- State of `only_vact_control` after `passes` passes of its loop. -/
def only_vact_control (passes : Nat) (s : State) : State :=
  only_vact_control.body^[passes] s

/-- The loop `for (uint16_t i = 0; i <= 5000; i++)` of `linear_acc_control`,
entered with counter `i`. -/
def linear_acc_control.up (i : Nat) (s : State) : State :=
  if i ≤ 5000 then
    let s := set_vactual (i : Int) s
    let s := { s with out := s.out ++ [Event.printf (i : Int)] }
    let s := { s with out := s.out ++ [Event.sleep_us 100] }
    linear_acc_control.up ((i + 1) % 65536) s
  else
    s
termination_by 5001 - i
decreasing_by omega

/-- The loop `for (uint16_t i = 5000; i > 0; i--)` of `linear_acc_control`,
entered with counter `i`. -/
def linear_acc_control.down (i : Nat) (s : State) : State :=
  if i > 0 then
    let s := set_vactual (i : Int) s
    let s := { s with out := s.out ++ [Event.printf (i : Int)] }
    let s := { s with out := s.out ++ [Event.sleep_us 100] }
    linear_acc_control.down ((i - 1) % 65536) s
  else
    s
termination_by i
decreasing_by omega

/-- Body of `while (true)` in `linear_acc_control`. -/
def linear_acc_control.body (s : State) : State :=
  let s := linear_acc_control.up 0 s
  let s := linear_acc_control.down 5000 s
  s

/-- State of `linear_acc_control` after `passes` passes of its loop. -/
def linear_acc_control (passes : Nat) (s : State) : State :=
  linear_acc_control.body^[passes] s

/-- Function `main` up to the call of `linear_acc_control` (the SDK bring-up calls emit
no event of the model), followed by `passes` passes of that loop. -/
def main (passes : Nat) : State :=
  linear_acc_control passes (set_ihold_irun 16 16 8 State.init)

/-! ## Auxiliary definitions for the statements -/

/-- The inner loop body of `calcCRC` on the pair `(crc, currentByte)`. -/
def calcCRC.bodyPair (p : Nat × Nat) : Nat × Nat := calcCRC.body p.1 p.2

/-- The seven body bytes of a write datagram with register byte `regByte`
(address with the write flag set) and 32-bit value `value`. -/
def frameBody (regByte value : Nat) : List Nat :=
  [0x05, 0x00, regByte, value / 2 ^ 24 % 256, value / 2 ^ 16 % 256,
    value / 2 ^ 8 % 256, value % 256]

/-- The nine events of one register write: the seven body bytes, the CRC byte
over them, the 3 ms settle delay. -/
def frameEvents (regByte value : Nat) : List Event :=
  (frameBody regByte value).map Event.uart_putc ++
    [Event.uart_putc (calcCRC (frameBody regByte value) 7), Event.busy_wait_ms 3]

/-- Register writes read back off a trace: every run of eight transmitted bytes
closed by a delay is one datagram, reported as its register byte and the
big-endian value of its four value bytes. -/
def decodedWrites : List Event → List (Nat × Nat)
  | Event.uart_putc _ :: Event.uart_putc _ :: Event.uart_putc r :: Event.uart_putc b3 ::
      Event.uart_putc b4 :: Event.uart_putc b5 :: Event.uart_putc b6 :: Event.uart_putc _ ::
      Event.busy_wait_ms _ :: rest =>
    (r, b3 * 2 ^ 24 + b4 * 2 ^ 16 + b5 * 2 ^ 8 + b6) :: decodedWrites rest
  | _ :: rest => decodedWrites rest
  | [] => []

/-- A 32-bit word read as a two's-complement signed number. -/
def toInt32 (w : Nat) : Int :=
  if w % 2 ^ 32 < 2 ^ 31 then (w % 2 ^ 32 : Nat) else ((w % 2 ^ 32 : Nat) : Int) - 2 ^ 32

/-- The velocities written to VACTUAL (register byte `0xA2`) in a trace. -/
def vactualWrites (es : List Event) : List Int :=
  ((decodedWrites es).filter (fun p => p.1 = 0xA2)).map (fun p => toInt32 p.2)

/-- The four value bytes of a frame, offsets 3 to 6. -/
def valueBytes (frame : List Nat) : List Nat :=
  (frame.drop 3).take 4

/-- Largest value a bit-field of the declared width holds. -/
def fieldMax {α : Type} [DecidableEq α] (decl : List (α × Nat)) (f : α) : Nat :=
  2 ^ fieldWidth decl f - 1

/-- The word whose set bits are exactly the bits `lo..hi`. -/
def rangeMask (hi lo : Nat) : Nat :=
  ((List.range' lo (hi + 1 - lo)).map (fun i => 2 ^ i)).sum

/-- Events of one step of a ramp loop of `linear_acc_control` with counter
value `k`: the VACTUAL datagram, the `printf`, the 100 µs sleep. -/
def stepEvents (k : Nat) : List Event :=
  frameEvents 0xA2 k ++ [Event.printf (k : Int), Event.sleep_us 100]

/-- Events of the ramp steps for the counter values `ks`, in order. -/
def rampEvents : List Nat → List Event
  | [] => []
  | k :: ks => stepEvents k ++ rampEvents ks

/-- Counter values of one pass of the body of `linear_acc_control`: those of
the rising loop, then those of the falling loop. -/
def rampBlock : List Nat :=
  List.range' 0 5001 ++ (List.range' 1 5000).reverse

/-- Counter values of `passes` passes. -/
def rampCounters : Nat → List Nat
  | 0 => []
  | passes + 1 => rampCounters passes ++ rampBlock

/-- Position `k` of the triangle wave `0, 1, .., 5000, 5000, 4999, .., 1`
repeated with period 10001. -/
def rampValue (k : Nat) : Int :=
  if k % 10001 ≤ 5000 then (k % 10001 : Nat) else ((10001 - k % 10001 : Nat) : Int)

/-! ### Reference CRC-8

Polynomials over GF(2) are coded as natural numbers: bit `i` of the number is
the coefficient of `x ^ i`.  Addition of polynomials is `^^^`, multiplication
by `x ^ n` is `<<< n`. -/

/-- The bits of one byte in the order the reference CRC reads them: bit 0
first, bit 7 last. -/
def byteBits (b : Nat) : List Bool :=
  (List.range 8).map (fun i => b.testBit i)

/-- The message bit stream of a byte sequence. -/
def messageBits : List Nat → List Bool
  | [] => []
  | b :: bs => byteBits b ++ messageBits bs

/-- The message polynomial of a bit stream: the first bit is the coefficient of
the highest power, the last bit the constant coefficient. -/
def polyOfBits : List Bool → Nat
  | [] => 0
  | b :: bs => (b.toNat <<< bs.length) ^^^ polyOfBits bs

/-- Long division of `a` by `g` (of degree `dg`) over GF(2), for the quotient
coefficients of `x ^ (n - 1)` down to `x ^ 0`: whenever the coefficient of
`x ^ (dg + i)` in the running remainder is 1, `x ^ i * g` is subtracted. -/
def gf2ModAux (g dg : Nat) : Nat → Nat → Nat
  | 0, a => a
  | n + 1, a => gf2ModAux g dg n (if a.testBit (dg + n) then a ^^^ (g <<< n) else a)

/-- Remainder of `a` modulo `g` over GF(2), by long division from the leading
coefficient of `a` downwards. -/
def gf2Mod (a g : Nat) : Nat :=
  gf2ModAux g (Nat.log2 g) (Nat.log2 a + 1) a

/-- The generator polynomial `x^8 + x^2 + x + 1`. -/
def crc8Generator : Nat := 0x107

/-- Reference CRC-8 of the claim: generator `x^8 + x^2 + x + 1`, initial value
0, no final XOR, bytes read from bit 0 to bit 7: the remainder modulo the
generator of the message polynomial multiplied by `x^8`. -/
def crc8Reference (bytes : List Nat) : Nat :=
  gf2Mod (polyOfBits (messageBits bytes) <<< 8) crc8Generator

/-- One step of the inner loop of `calcCRC` as a function of the register and
the message bit consumed. -/
def lfsrStep (crc : Nat) (b : Bool) : Nat :=
  (calcCRC.body crc b.toNat).1

/-- The multiple `(Σ x ^ n) * g` of `g` over GF(2), `n` ranging over `shifts`. -/
def gf2Multiple (g : Nat) : List Nat → Nat
  | [] => 0
  | n :: shifts => (g <<< n) ^^^ gf2Multiple g shifts

/-- The values printed by `printf` in a trace, in order. -/
def printfValues : List Event → List Int
  | [] => []
  | Event.printf v :: rest => v :: printfValues rest
  | _ :: rest => printfValues rest

/-- Events of `passes` passes of the loop of `only_vact_control`: per pass a
VACTUAL datagram with value 1000, a 1000 ms sleep, a VACTUAL datagram with the
32-bit encoding of -1000, a 1000 ms sleep. -/
def alternatingEvents : Nat → List Event
  | 0 => []
  | passes + 1 =>
    alternatingEvents passes ++
      (frameEvents 0xA2 1000 ++ (Event.sleep_ms 1000 ::
        (frameEvents 0xA2 (2 ^ 32 - 1000) ++ [Event.sleep_ms 1000])))

/-! # Theorems -/

/-! ## The loops of `calcCRC` and `tmc_write` in closed form -/

theorem calcCRC.inner_step (j crc b : Nat) (h : j < 8) :
    calcCRC.inner j crc b =
      calcCRC.inner (j + 1) (calcCRC.body crc b).1 (calcCRC.body crc b).2 := by
  rw [calcCRC.inner]
  have h2 : (j + 1) % 256 = j + 1 := by omega
  simp only [h, if_true, h2]

theorem calcCRC.inner_done (crc b : Nat) : calcCRC.inner 8 crc b = crc := by
  rw [calcCRC.inner]; simp

theorem calcCRC.inner_unroll (crc b : Nat) :
    calcCRC.inner 0 crc b = (calcCRC.bodyPair^[8] (crc, b)).1 := by
  rw [calcCRC.inner_step 0 _ _ (by decide), calcCRC.inner_step 1 _ _ (by decide),
    calcCRC.inner_step 2 _ _ (by decide), calcCRC.inner_step 3 _ _ (by decide),
    calcCRC.inner_step 4 _ _ (by decide), calcCRC.inner_step 5 _ _ (by decide),
    calcCRC.inner_step 6 _ _ (by decide), calcCRC.inner_step 7 _ _ (by decide),
    calcCRC.inner_done]
  rfl

theorem calcCRC.inner_fun :
    calcCRC.inner 0 = fun crc b => (calcCRC.bodyPair^[8] (crc, b)).1 := by
  funext crc b; exact calcCRC.inner_unroll crc b

theorem calcCRC.outer_eq (d : List Nat) (len : Nat) :
    ∀ (n i crc : Nat), i + n = len % 256 →
      calcCRC.outer d len i crc =
        ((List.range' i n).map (fun k => d.getD k 0)).foldl (calcCRC.inner 0) crc := by
  intro n
  induction n with
  | zero =>
    intro i crc h
    rw [calcCRC.outer]
    simp
    omega
  | succ n ih =>
    intro i crc h
    rw [calcCRC.outer]
    have h1 : i < len % 256 := by omega
    have h2 : (i + 1) % 256 = i + 1 := by omega
    simp only [h1, if_true, h2]
    rw [ih (i + 1) _ (by omega)]
    simp [List.range'_succ]

theorem calcCRC_eq_foldl (d : List Nat) (len : Nat) :
    calcCRC d len =
      ((List.range (len % 256)).map (fun k => d.getD k 0)).foldl (calcCRC.inner 0) 0 := by
  unfold calcCRC
  rw [calcCRC.outer_eq d len (len % 256) 0 0 (by omega), List.range_eq_range']

theorem calcCRC_congr (d d' : List Nat) (len : Nat)
    (h : ∀ i, i < len % 256 → d.getD i 0 = d'.getD i 0) : calcCRC d len = calcCRC d' len := by
  rw [calcCRC_eq_foldl, calcCRC_eq_foldl]
  congr 1
  apply List.map_congr_left
  intro i hi
  exact h i (List.mem_range.mp hi)

theorem calcCRC_append_singleton (x : Nat) (l : List Nat) (hl : l.length = 7) :
    calcCRC (l ++ [x]) 7 = calcCRC l 7 := by
  apply calcCRC_congr
  intro i hi
  have hi' : i < l.length := by omega
  simp [List.getD, List.getElem?_append_left hi']

theorem tmc_write.send_eq (b0 b1 b2 b3 b4 b5 b6 b7 : Nat) (s : State) :
    tmc_write.send [b0, b1, b2, b3, b4, b5, b6, b7] 0 s =
      { s with out := s.out ++ [Event.uart_putc b0, Event.uart_putc b1, Event.uart_putc b2,
          Event.uart_putc b3, Event.uart_putc b4, Event.uart_putc b5, Event.uart_putc b6,
          Event.uart_putc b7] } := by
  have step : ∀ (frame : List Nat) (i : Nat) (t : State), i ≤ 7 →
      tmc_write.send frame i t = tmc_write.send frame (i + 1)
        { t with out := t.out ++ [Event.uart_putc (frame.getD i 0)] } := by
    intro frame i t h
    rw [tmc_write.send]
    have h2 : (i + 1) % 256 = i + 1 := by omega
    simp only [h, if_true, h2]
  have stop : ∀ (frame : List Nat) (t : State), tmc_write.send frame 8 t = t := by
    intro frame t; rw [tmc_write.send]; simp
  rw [step _ 0 _ (by decide), step _ 1 _ (by decide), step _ 2 _ (by decide),
    step _ 3 _ (by decide), step _ 4 _ (by decide), step _ 5 _ (by decide),
    step _ 6 _ (by decide), step _ 7 _ (by decide), stop]
  simp only [List.append_assoc, List.cons_append, List.nil_append]
  rfl

theorem length_eq_eight {l : List Nat} (h : l.length = 8) :
    ∃ x0 x1 x2 x3 x4 x5 x6 x7, l = [x0, x1, x2, x3, x4, x5, x6, x7] := by
  match l, h with
  | [x0, x1, x2, x3, x4, x5, x6, x7], _ => exact ⟨x0, x1, x2, x3, x4, x5, x6, x7, rfl⟩

theorem tmc_write.frame_eq (frame : List Nat) (h : frame.length = 8) (a v : Nat) :
    tmc_write.frame frame a v =
      [0x05, 0x00, (a ||| 0x80) % 256, v / 2 ^ 24 % 256, v / 2 ^ 16 % 256, v / 2 ^ 8 % 256,
        v % 256,
        calcCRC [0x05, 0x00, (a ||| 0x80) % 256, v / 2 ^ 24 % 256, v / 2 ^ 16 % 256,
          v / 2 ^ 8 % 256, v % 256] 7] := by
  obtain ⟨x0, x1, x2, x3, x4, x5, x6, x7, rfl⟩ := length_eq_eight h
  have hc := calcCRC_append_singleton x7
    [0x05, 0x00, (a ||| 0x80) % 256, v / 2 ^ 24 % 256, v / 2 ^ 16 % 256, v / 2 ^ 8 % 256,
      v % 256] rfl
  simp only [List.cons_append, List.nil_append] at hc
  simp only [tmc_write.frame, List.set, TMC2209_SYNC_BIT, DRIVER_1, TMC2209_WRITE_BIT,
    Nat.shiftRight_eq_div_pow, pow_zero, Nat.div_one, hc]

theorem tmc_write_eq (a v : Nat) (s : State) :
    tmc_write a v s =
      { s with out := s.out ++ frameEvents (a % 256 ||| 0x80) (v % 2 ^ 32) } := by
  have ha : (a % 256 ||| 0x80) % 256 = a % 256 ||| 0x80 := by
    apply Nat.mod_eq_of_lt
    exact Nat.or_lt_two_pow (n := 8) (Nat.mod_lt _ (by decide)) (by decide)
  unfold tmc_write
  simp only [tmc_write.frame_eq _ (List.length_replicate 8 0), ha, tmc_write.send_eq]
  simp only [frameEvents, frameBody, List.map, List.cons_append, List.nil_append,
    List.append_assoc]

/-! ## Bit-fields -/

theorem bitfieldSet_testBit (off width w v i : Nat) (h : off + width ≤ 32) :
    (bitfieldSet off width w v).testBit i =
      if off ≤ i ∧ i < off + width then v.testBit (i - off)
      else (w.testBit i && decide (i < 32)) := by
  have h32 : (0xFFFFFFFF : Nat) = 2 ^ 32 - 1 := by decide
  unfold bitfieldSet
  rw [h32]
  simp only [Nat.testBit_or, Nat.testBit_and, Nat.testBit_xor, Nat.testBit_shiftLeft,
    Nat.testBit_mod_two_pow, Nat.testBit_two_pow_sub_one]
  by_cases h1 : off ≤ i
  · by_cases h2 : i < off + width
    · have h3 : i - off < width := by omega
      have h4 : i < 32 := by omega
      simp [h1, h2, h3, h4]
    · have h3 : ¬ (i - off < width) := by omega
      simp [h1, h2, h3]
  · have h2 : ¬ (i ≥ off) := by omega
    simp [h1, h2]

theorem bitfieldGet_testBit (off width w i : Nat) :
    (bitfieldGet off width w).testBit i = (decide (i < width) && w.testBit (off + i)) := by
  unfold bitfieldGet
  simp only [Nat.testBit_mod_two_pow, Nat.testBit_shiftRight]

theorem bitfieldSet_lt (off width w v : Nat) (h : off + width ≤ 32) :
    bitfieldSet off width w v < 2 ^ 32 := by
  apply Nat.lt_pow_two_of_testBit
  intro i hi
  rw [bitfieldSet_testBit _ _ _ _ _ h]
  have h1 : ¬ (off ≤ i ∧ i < off + width) := by omega
  have h2 : ¬ (i < 32) := by omega
  simp [h1, h2]

theorem bitfieldGet_set_same (off width w v : Nat) (h : off + width ≤ 32) :
    bitfieldGet off width (bitfieldSet off width w v) = v % 2 ^ width := by
  apply Nat.eq_of_testBit_eq
  intro i
  rw [bitfieldGet_testBit, bitfieldSet_testBit _ _ _ _ _ h, Nat.testBit_mod_two_pow]
  by_cases h1 : i < width
  · have h2 : off ≤ off + i ∧ off + i < off + width := by omega
    simp [h1, h2]
  · simp [h1]

theorem bitfieldGet_set_other (off width off' width' w v : Nat)
    (h0 : off + width ≤ 32) (h : off' + width' ≤ off ∨ off + width ≤ off')
    (h' : off' + width' ≤ 32) :
    bitfieldGet off' width' (bitfieldSet off width w v) = bitfieldGet off' width' w := by
  apply Nat.eq_of_testBit_eq
  intro i
  rw [bitfieldGet_testBit, bitfieldSet_testBit _ _ _ _ _ h0, bitfieldGet_testBit]
  by_cases h1 : i < width'
  · have h2 : ¬ (off ≤ off' + i ∧ off' + i < off + width) := by omega
    have h3 : off' + i < 32 := by omega
    simp [h1, h2, h3]
  · simp [h1]

theorem DriverCurrent.set_ihold : DriverCurrent.set .ihold = bitfieldSet 0 5 := rfl
theorem DriverCurrent.set_irun : DriverCurrent.set .irun = bitfieldSet 8 5 := rfl
theorem DriverCurrent.set_iholddelay : DriverCurrent.set .iholddelay = bitfieldSet 16 4 := rfl
theorem DriverCurrent.get_ihold : DriverCurrent.get .ihold = bitfieldGet 0 5 := rfl
theorem DriverCurrent.get_irun : DriverCurrent.get .irun = bitfieldGet 8 5 := rfl
theorem DriverCurrent.get_iholddelay : DriverCurrent.get .iholddelay = bitfieldGet 16 4 := rfl
theorem GlobalConfig.set_shaft : GlobalConfig.set .shaft = bitfieldSet 3 1 := rfl
theorem ChopperConfig.set_mres : ChopperConfig.set .mres = bitfieldSet 24 4 := rfl
theorem ChopperConfig.get_mres : ChopperConfig.get .mres = bitfieldGet 24 4 := rfl

/-! ## The setters in closed form -/

theorem set_vactual_eq (value : Int) (s : State) :
    set_vactual value s =
      { s with out := s.out ++ frameEvents 0xA2 (Int.toNat (value % 2 ^ 32)) } := by
  have h : Int.toNat (value % 2 ^ 32) % 2 ^ 32 = Int.toNat (value % 2 ^ 32) := by omega
  unfold set_vactual
  rw [tmc_write_eq, h]
  rfl

theorem set_ihold_irun_eq (i_hold : Int) (i_run i_hold_delay : Nat) (s : State) :
    set_ihold_irun i_hold i_run i_hold_delay s =
      { s with
        driver_current :=
          bitfieldSet 16 4 (bitfieldSet 8 5 (bitfieldSet 0 5 s.driver_current
            (Int.toNat (i_hold % 2 ^ 32))) (i_run % 256)) (i_hold_delay % 256)
        out := s.out ++ frameEvents 0x90
          (bitfieldSet 16 4 (bitfieldSet 8 5 (bitfieldSet 0 5 s.driver_current
            (Int.toNat (i_hold % 2 ^ 32))) (i_run % 256)) (i_hold_delay % 256)) } := by
  unfold set_ihold_irun
  simp only [tmc_write_eq, DriverCurrent.set_ihold, DriverCurrent.set_irun,
    DriverCurrent.set_iholddelay,
    Nat.mod_eq_of_lt (bitfieldSet_lt 16 4 _ _ (by decide))]
  rfl

theorem set_direction_eq (direction : Bool) (s : State) :
    set_direction direction s =
      { s with
        driver_config := bitfieldSet 3 1 s.driver_config direction.toNat
        out := s.out ++ frameEvents 0x80 (bitfieldSet 3 1 s.driver_config direction.toNat) } := by
  unfold set_direction
  simp only [tmc_write_eq, GlobalConfig.set_shaft,
    Nat.mod_eq_of_lt (bitfieldSet_lt 3 1 _ _ (by decide))]
  rfl

theorem set_microstep_resolution_eq (resolution : Nat) (s : State) :
    set_microstep_resolution resolution s =
      { s with
        chopper_config := bitfieldSet 24 4 s.chopper_config (resolution % 256)
        out := s.out ++ frameEvents 0xEC
          (bitfieldSet 24 4 s.chopper_config (resolution % 256)) } := by
  unfold set_microstep_resolution
  simp only [tmc_write_eq, ChopperConfig.set_mres,
    Nat.mod_eq_of_lt (bitfieldSet_lt 24 4 _ _ (by decide))]
  rfl

/-! ## Claims -/

/-- C1: for an 8-bit register address `a` and a 32-bit value `v`, `tmc_write`
appends to the trace exactly the eight bytes `0x05`, `0x00`, `a | 0x80`,
bits 31..24, 23..16, 15..8 and 7..0 of `v`, and `calcCRC` of those seven bytes,
then one 3 ms delay, and nothing else; the register words are untouched. -/
theorem tmc_write_datagram (a v : Nat) (ha : a < 256) (hv : v < 2 ^ 32) (s : State) :
    tmc_write a v s =
      { s with out := s.out ++
          [Event.uart_putc 0x05, Event.uart_putc 0x00, Event.uart_putc (a ||| 0x80),
           Event.uart_putc (v / 2 ^ 24 % 256), Event.uart_putc (v / 2 ^ 16 % 256),
           Event.uart_putc (v / 2 ^ 8 % 256), Event.uart_putc (v % 256),
           Event.uart_putc (calcCRC [0x05, 0x00, a ||| 0x80, v / 2 ^ 24 % 256,
             v / 2 ^ 16 % 256, v / 2 ^ 8 % 256, v % 256] 7),
           Event.busy_wait_ms 3] } := by
  rw [tmc_write_eq, Nat.mod_eq_of_lt ha, Nat.mod_eq_of_lt hv]
  rfl

theorem tmc_write_datagram_witness :
    (0x6C < 256 ∧ 0x10000053 < 2 ^ 32) ∧
    tmc_write 0x6C 0x10000053 State.init =
      { State.init with out := State.init.out ++
          [Event.uart_putc 0x05, Event.uart_putc 0x00, Event.uart_putc (0x6C ||| 0x80),
           Event.uart_putc (0x10000053 / 2 ^ 24 % 256),
           Event.uart_putc (0x10000053 / 2 ^ 16 % 256),
           Event.uart_putc (0x10000053 / 2 ^ 8 % 256), Event.uart_putc (0x10000053 % 256),
           Event.uart_putc (calcCRC [0x05, 0x00, 0x6C ||| 0x80, 0x10000053 / 2 ^ 24 % 256,
             0x10000053 / 2 ^ 16 % 256, 0x10000053 / 2 ^ 8 % 256, 0x10000053 % 256] 7),
           Event.busy_wait_ms 3] } :=
  ⟨by decide, tmc_write_datagram 0x6C 0x10000053 (by decide) (by decide) State.init⟩

theorem valueBytes_frame (frame : List Nat) (h : frame.length = 8) (a v : Nat) :
    valueBytes (tmc_write.frame frame a v) =
      [v / 2 ^ 24 % 256, v / 2 ^ 16 % 256, v / 2 ^ 8 % 256, v % 256] := by
  rw [tmc_write.frame_eq frame h]
  rfl

/-- C3: for a 32-bit value `v`, the bytes `tmc_write` stores at frame offsets
3..6 are `v` in big-endian order: they are bytes, `b3*2^24 + b4*2^16 + b5*2^8 +
b6 = v`, two 32-bit values with the same four bytes are equal, and for
`v = 0x12345678` the bytes are `0x12, 0x34, 0x56, 0x78`. -/
theorem tmc_write_value_big_endian (a v : Nat) (hv : v < 2 ^ 32) (frame : List Nat)
    (h : frame.length = 8) :
    (∃ b3 b4 b5 b6, valueBytes (tmc_write.frame frame a v) = [b3, b4, b5, b6] ∧
        b3 < 256 ∧ b4 < 256 ∧ b5 < 256 ∧ b6 < 256 ∧
        b3 * 2 ^ 24 + b4 * 2 ^ 16 + b5 * 2 ^ 8 + b6 = v) ∧
      (∀ v', v' < 2 ^ 32 →
        valueBytes (tmc_write.frame frame a v') = valueBytes (tmc_write.frame frame a v) →
        v' = v) ∧
      valueBytes (tmc_write.frame frame a 0x12345678) = [0x12, 0x34, 0x56, 0x78] := by
  refine ⟨⟨v / 2 ^ 24 % 256, v / 2 ^ 16 % 256, v / 2 ^ 8 % 256, v % 256,
    valueBytes_frame frame h a v, ?_, ?_, ?_, ?_, ?_⟩, ?_, ?_⟩
  · omega
  · omega
  · omega
  · omega
  · omega
  · intro v' hv' heq
    rw [valueBytes_frame frame h, valueBytes_frame frame h] at heq
    simp only [List.cons.injEq, and_true] at heq
    omega
  · rw [valueBytes_frame frame h]
    decide

theorem tmc_write_value_big_endian_witness :
    ((0xFFFFFC18 : Nat) < 2 ^ 32 ∧ (List.replicate 8 0xAA).length = 8) ∧
    ((∃ b3 b4 b5 b6,
        valueBytes (tmc_write.frame (List.replicate 8 0xAA) 0x22 0xFFFFFC18) =
          [b3, b4, b5, b6] ∧
        b3 < 256 ∧ b4 < 256 ∧ b5 < 256 ∧ b6 < 256 ∧
        b3 * 2 ^ 24 + b4 * 2 ^ 16 + b5 * 2 ^ 8 + b6 = 0xFFFFFC18) ∧
      (∀ v', v' < 2 ^ 32 →
        valueBytes (tmc_write.frame (List.replicate 8 0xAA) 0x22 v') =
          valueBytes (tmc_write.frame (List.replicate 8 0xAA) 0x22 0xFFFFFC18) →
        v' = 0xFFFFFC18) ∧
      valueBytes (tmc_write.frame (List.replicate 8 0xAA) 0x22 0x12345678) =
        [0x12, 0x34, 0x56, 0x78]) :=
  ⟨by decide, tmc_write_value_big_endian 0x22 0xFFFFFC18 (by decide)
    (List.replicate 8 0xAA) (by decide)⟩

set_option maxRecDepth 100000 in
theorem calcCRC_known_vector :
    calcCRC [0x05, 0x00, 0x90, 0x00, 0x00, 0x00, 0x01] 7 = 0xD9 := by
  rw [calcCRC_eq_foldl, calcCRC.inner_fun]
  decide

/-- C4: `calcCRC` of the seven bytes `05 00 90 00 00 00 01` with `len = 7` is
`0xD9`, and `tmc_write(0x10, 1)` transmits `05 00 90 00 00 00 01 D9` (followed
by its 3 ms delay). -/
theorem tmc_write_known_vector (s : State) :
    calcCRC [0x05, 0x00, 0x90, 0x00, 0x00, 0x00, 0x01] 7 = 0xD9 ∧
      (tmc_write 0x10 1 s).out = s.out ++
        [Event.uart_putc 0x05, Event.uart_putc 0x00, Event.uart_putc 0x90,
         Event.uart_putc 0x00, Event.uart_putc 0x00, Event.uart_putc 0x00,
         Event.uart_putc 0x01, Event.uart_putc 0xD9, Event.busy_wait_ms 3] := by
  refine ⟨calcCRC_known_vector, ?_⟩
  rw [tmc_write_eq]
  have h : frameBody (0x10 % 256 ||| 0x80) (1 % 2 ^ 32) =
      [0x05, 0x00, 0x90, 0x00, 0x00, 0x00, 0x01] := by decide
  simp only [frameEvents, h, calcCRC_known_vector]
  rfl

theorem rangeMask_testBit :
    ∀ hi, hi < 32 → ∀ lo, lo < 32 → ∀ i, i < 32 →
      (rangeMask hi lo).testBit i = decide (lo ≤ i ∧ i ≤ hi) := by
  decide

/-- C5: starting from the all-zero word, setting one named field of
`GlobalConfig`, `DriverCurrent` or `ChopperConfig` to its maximum gives the word
whose set bits are exactly that field's range, the ranges being those listed in
the claim; the words obtained for two different fields of one register have no
bit in common. -/
theorem bitfield_isolation :
    (GlobalConfig.set .i_scale_analog 0 (fieldMax GlobalConfig.decl .i_scale_analog)
        = rangeMask 0 0 ∧
      GlobalConfig.set .internal_rsense 0 (fieldMax GlobalConfig.decl .internal_rsense)
        = rangeMask 1 1 ∧
      GlobalConfig.set .enable_spread_cycle 0
        (fieldMax GlobalConfig.decl .enable_spread_cycle) = rangeMask 2 2 ∧
      GlobalConfig.set .shaft 0 (fieldMax GlobalConfig.decl .shaft) = rangeMask 3 3 ∧
      GlobalConfig.set .index_otpw 0 (fieldMax GlobalConfig.decl .index_otpw)
        = rangeMask 4 4 ∧
      GlobalConfig.set .index_step 0 (fieldMax GlobalConfig.decl .index_step)
        = rangeMask 5 5 ∧
      GlobalConfig.set .pdn_disable 0 (fieldMax GlobalConfig.decl .pdn_disable)
        = rangeMask 6 6 ∧
      GlobalConfig.set .mstep_reg_select 0 (fieldMax GlobalConfig.decl .mstep_reg_select)
        = rangeMask 7 7 ∧
      GlobalConfig.set .multistep_filt 0 (fieldMax GlobalConfig.decl .multistep_filt)
        = rangeMask 8 8 ∧
      GlobalConfig.set .test_mode 0 (fieldMax GlobalConfig.decl .test_mode)
        = rangeMask 9 9) ∧
    (DriverCurrent.set .ihold 0 (fieldMax DriverCurrent.decl .ihold) = rangeMask 4 0 ∧
      DriverCurrent.set .irun 0 (fieldMax DriverCurrent.decl .irun) = rangeMask 12 8 ∧
      DriverCurrent.set .iholddelay 0 (fieldMax DriverCurrent.decl .iholddelay)
        = rangeMask 19 16) ∧
    (ChopperConfig.set .toff 0 (fieldMax ChopperConfig.decl .toff) = rangeMask 3 0 ∧
      ChopperConfig.set .hstrt 0 (fieldMax ChopperConfig.decl .hstrt) = rangeMask 6 4 ∧
      ChopperConfig.set .hend 0 (fieldMax ChopperConfig.decl .hend) = rangeMask 10 7 ∧
      ChopperConfig.set .tbl 0 (fieldMax ChopperConfig.decl .tbl) = rangeMask 16 15 ∧
      ChopperConfig.set .vsense 0 (fieldMax ChopperConfig.decl .vsense) = rangeMask 17 17 ∧
      ChopperConfig.set .mres 0 (fieldMax ChopperConfig.decl .mres) = rangeMask 27 24 ∧
      ChopperConfig.set .interpolation 0 (fieldMax ChopperConfig.decl .interpolation)
        = rangeMask 28 28 ∧
      ChopperConfig.set .double_edge 0 (fieldMax ChopperConfig.decl .double_edge)
        = rangeMask 29 29 ∧
      ChopperConfig.set .diss2g 0 (fieldMax ChopperConfig.decl .diss2g) = rangeMask 30 30 ∧
      ChopperConfig.set .diss2vs 0 (fieldMax ChopperConfig.decl .diss2vs)
        = rangeMask 31 31) ∧
    (∀ f g : GlobalConfigField, f ≠ g →
      GlobalConfig.set f 0 (fieldMax GlobalConfig.decl f) &&&
        GlobalConfig.set g 0 (fieldMax GlobalConfig.decl g) = 0) ∧
    (∀ f g : DriverCurrentField, f ≠ g →
      DriverCurrent.set f 0 (fieldMax DriverCurrent.decl f) &&&
        DriverCurrent.set g 0 (fieldMax DriverCurrent.decl g) = 0) ∧
    (∀ f g : ChopperConfigField, f ≠ g →
      ChopperConfig.set f 0 (fieldMax ChopperConfig.decl f) &&&
        ChopperConfig.set g 0 (fieldMax ChopperConfig.decl g) = 0) := by
  refine ⟨by decide, by decide, by decide, ?_, ?_, ?_⟩
  · intro f g h
    cases f <;> cases g <;> first | exact absurd rfl h | decide
  · intro f g h
    cases f <;> cases g <;> first | exact absurd rfl h | decide
  · intro f g h
    cases f <;> cases g <;> first | exact absurd rfl h | decide

set_option maxRecDepth 1000000 in
theorem DriverCurrent.pack_zero : ∀ a, a < 32 → ∀ b, b < 32 → ∀ c, c < 16 →
    bitfieldSet 16 4 (bitfieldSet 8 5 (bitfieldSet 0 5 0 a) b) c
      = a + b * 2 ^ 8 + c * 2 ^ 16 := by
  decide

/-- C6: for `i_hold`, `i_run` in 0..31 and `i_hold_delay` in 0..15,
`set_ihold_irun` on the zero `DriverCurrent` word leaves the word
`i_hold + i_run*2^8 + i_hold_delay*2^16`, the three fields read back as written,
and that word is transmitted in one datagram with register byte `0x90`
(address `0x10`); for `set_ihold_irun(16, 16, 8)` the word is `0x00081010`. -/
theorem set_ihold_irun_encodes (i_hold : Int) (i_run i_hold_delay : Nat)
    (h1 : 0 ≤ i_hold ∧ i_hold ≤ 31) (h2 : i_run ≤ 31) (h3 : i_hold_delay ≤ 15)
    (s : State) (hs : s.driver_current = 0) :
    ((set_ihold_irun i_hold i_run i_hold_delay s).driver_current : Int) =
        i_hold + i_run * 2 ^ 8 + i_hold_delay * 2 ^ 16 ∧
      (DriverCurrent.get .ihold
        (set_ihold_irun i_hold i_run i_hold_delay s).driver_current : Int) = i_hold ∧
      DriverCurrent.get .irun
        (set_ihold_irun i_hold i_run i_hold_delay s).driver_current = i_run ∧
      DriverCurrent.get .iholddelay
        (set_ihold_irun i_hold i_run i_hold_delay s).driver_current = i_hold_delay ∧
      (set_ihold_irun i_hold i_run i_hold_delay s).out =
        s.out ++ frameEvents 0x90 (set_ihold_irun i_hold i_run i_hold_delay s).driver_current ∧
      (set_ihold_irun 16 16 8 State.init).driver_current = 0x00081010 := by
  obtain ⟨n, rfl⟩ := Int.eq_ofNat_of_zero_le h1.1
  have hn : n < 32 := by omega
  have e1 : Int.toNat ((n : Int) % 2 ^ 32) = n := by omega
  have e2 : i_run % 256 = i_run := by omega
  have e3 : i_hold_delay % 256 = i_hold_delay := by omega
  have hw := DriverCurrent.pack_zero n hn i_run (by omega) i_hold_delay (by omega)
  simp only [set_ihold_irun_eq, hs, e1, e2, e3, hw, DriverCurrent.get_ihold,
    DriverCurrent.get_irun, DriverCurrent.get_iholddelay, bitfieldGet,
    Nat.shiftRight_eq_div_pow]
  refine ⟨by push_cast; ring, ?_, ?_, ?_, trivial, ?_⟩
  · have : (n + i_run * 2 ^ 8 + i_hold_delay * 2 ^ 16) / 2 ^ 0 % 2 ^ 5 = n := by omega
    rw [this]
  · omega
  · omega
  · decide

theorem set_ihold_irun_encodes_witness :
    ((0 ≤ (16 : Int) ∧ (16 : Int) ≤ 31) ∧ 16 ≤ 31 ∧ 8 ≤ 15 ∧ State.init.driver_current = 0) ∧
    (((set_ihold_irun 16 16 8 State.init).driver_current : Int) =
        16 + (16 : Nat) * 2 ^ 8 + (8 : Nat) * 2 ^ 16 ∧
      (DriverCurrent.get .ihold
        (set_ihold_irun 16 16 8 State.init).driver_current : Int) = 16 ∧
      DriverCurrent.get .irun
        (set_ihold_irun 16 16 8 State.init).driver_current = 16 ∧
      DriverCurrent.get .iholddelay
        (set_ihold_irun 16 16 8 State.init).driver_current = 8 ∧
      (set_ihold_irun 16 16 8 State.init).out =
        State.init.out ++ frameEvents 0x90 (set_ihold_irun 16 16 8 State.init).driver_current ∧
      (set_ihold_irun 16 16 8 State.init).driver_current = 0x00081010) :=
  ⟨⟨by decide, by decide, by decide, rfl⟩,
    set_ihold_irun_encodes 16 16 8 (by decide) (by decide) (by decide) State.init rfl⟩

theorem frameEvents_inj (r x y : Nat) (h : frameEvents r x = frameEvents r y) :
    x % 2 ^ 32 = y % 2 ^ 32 := by
  simp only [frameEvents, frameBody, List.map, List.cons_append, List.nil_append,
    List.cons.injEq, Event.uart_putc.injEq, true_and, and_true] at h
  omega

/-- C7: for a signed 32-bit `v`, `set_vactual v` transmits one datagram with
register byte `0xA2` (address `0x22`) whose value is `v mod 2^32`, the
two's-complement encoding of `v` (read back as a signed word it is `v`); the
top bit of frame byte 3 is set exactly when `v` is negative; if `v ≠ 0` and
`-v` is a signed 32-bit value too, `-v` gives a different datagram; for
`v = -1000` the value bytes are `FF FF FC 18`. -/
theorem set_vactual_twos_complement (v : Int) (hv : -2 ^ 31 ≤ v ∧ v < 2 ^ 31) (s : State) :
    set_vactual v s = { s with out := s.out ++ frameEvents 0xA2 (Int.toNat (v % 2 ^ 32)) } ∧
      toInt32 (Int.toNat (v % 2 ^ 32)) = v ∧
      (128 ≤ Int.toNat (v % 2 ^ 32) / 2 ^ 24 % 256 ↔ v < 0) ∧
      (v ≠ 0 → -2 ^ 31 ≤ -v ∧ -v < 2 ^ 31 →
        (set_vactual (-v) s).out ≠ (set_vactual v s).out) ∧
      frameBody 0xA2 (Int.toNat ((-1000 : Int) % 2 ^ 32)) =
        [0x05, 0x00, 0xA2, 0xFF, 0xFF, 0xFC, 0x18] := by
  refine ⟨set_vactual_eq v s, ?_, ?_, ?_, ?_⟩
  · unfold toInt32
    split <;> omega
  · omega
  · intro h0 hneg heq
    rw [set_vactual_eq, set_vactual_eq] at heq
    have := frameEvents_inj _ _ _ (List.append_cancel_left heq)
    omega
  · decide

theorem set_vactual_twos_complement_witness :
    (-2 ^ 31 ≤ (-1000 : Int) ∧ (-1000 : Int) < 2 ^ 31) ∧
    (set_vactual (-1000) State.init =
        { State.init with
          out := State.init.out ++ frameEvents 0xA2 (Int.toNat ((-1000 : Int) % 2 ^ 32)) } ∧
      toInt32 (Int.toNat ((-1000 : Int) % 2 ^ 32)) = -1000 ∧
      (128 ≤ Int.toNat ((-1000 : Int) % 2 ^ 32) / 2 ^ 24 % 256 ↔ (-1000 : Int) < 0) ∧
      ((-1000 : Int) ≠ 0 → -2 ^ 31 ≤ -(-1000 : Int) ∧ -(-1000 : Int) < 2 ^ 31 →
        (set_vactual (-(-1000)) State.init).out ≠ (set_vactual (-1000) State.init).out) ∧
      frameBody 0xA2 (Int.toNat ((-1000 : Int) % 2 ^ 32)) =
        [0x05, 0x00, 0xA2, 0xFF, 0xFF, 0xFC, 0x18]) :=
  ⟨by decide, set_vactual_twos_complement (-1000) (by decide) State.init⟩

/-- C10: `set_direction d` on a 32-bit global-config word changes only bit 3
(the shaft bit), which becomes `d`; the other 31 bits keep their value, the
other two registers are untouched, and the resulting word is transmitted in
exactly one datagram with register byte `0x80` (address `0x00`). -/
theorem set_direction_frame (d : Bool) (s : State) (hg : s.driver_config < 2 ^ 32) :
    (∀ i, i ≠ 3 →
        (set_direction d s).driver_config.testBit i = s.driver_config.testBit i) ∧
      (set_direction d s).driver_config.testBit 3 = d ∧
      (set_direction d s).driver_config < 2 ^ 32 ∧
      (set_direction d s).out =
        s.out ++ frameEvents 0x80 (set_direction d s).driver_config ∧
      (set_direction d s).driver_current = s.driver_current ∧
      (set_direction d s).chopper_config = s.chopper_config := by
  rw [set_direction_eq]
  refine ⟨?_, ?_, bitfieldSet_lt 3 1 _ _ (by decide), rfl, rfl, rfl⟩
  · intro i hi
    show (bitfieldSet 3 1 s.driver_config d.toNat).testBit i = _
    rw [bitfieldSet_testBit _ _ _ _ _ (by decide)]
    have h1 : ¬ (3 ≤ i ∧ i < 3 + 1) := by omega
    simp only [h1, if_false]
    by_cases h2 : i < 32
    · simp [h2]
    · have : s.driver_config < 2 ^ i :=
        lt_of_lt_of_le hg (Nat.pow_le_pow_right (by decide) (by omega))
      simp [h2, Nat.testBit_lt_two_pow this]
  · show (bitfieldSet 3 1 s.driver_config d.toNat).testBit 3 = _
    rw [bitfieldSet_testBit _ _ _ _ _ (by decide)]
    have h1 : 3 ≤ 3 ∧ 3 < 3 + 1 := by decide
    rw [if_pos h1]
    cases d <;> rfl

theorem set_direction_frame_witness :
    ({ State.init with driver_config := 0x1C5 } : State).driver_config < 2 ^ 32 ∧
    ((∀ i, i ≠ 3 →
        (set_direction true { State.init with driver_config := 0x1C5 }).driver_config.testBit i
          = ({ State.init with driver_config := 0x1C5 } : State).driver_config.testBit i) ∧
      (set_direction true { State.init with driver_config := 0x1C5 }).driver_config.testBit 3
        = true ∧
      (set_direction true { State.init with driver_config := 0x1C5 }).driver_config < 2 ^ 32 ∧
      (set_direction true { State.init with driver_config := 0x1C5 }).out =
        ({ State.init with driver_config := 0x1C5 } : State).out ++ frameEvents 0x80
          (set_direction true { State.init with driver_config := 0x1C5 }).driver_config ∧
      (set_direction true { State.init with driver_config := 0x1C5 }).driver_current =
        ({ State.init with driver_config := 0x1C5 } : State).driver_current ∧
      (set_direction true { State.init with driver_config := 0x1C5 }).chopper_config =
        ({ State.init with driver_config := 0x1C5 } : State).chopper_config) :=
  ⟨by decide, set_direction_frame true { State.init with driver_config := 0x1C5 } (by decide)⟩

/-- C9 (as stated) fails: `set_ihold_irun(33, 0, 0)` and
`set_microstep_resolution(9)` on the initial state are not rejected; each
transmits a datagram and changes the stored word (`33` is cut to `1`). -/
theorem setters_reject_counterexample :
    ((set_ihold_irun 33 0 0 State.init).out = frameEvents 0x90 1 ∧
      (set_ihold_irun 33 0 0 State.init).out ≠ State.init.out ∧
      (set_ihold_irun 33 0 0 State.init).driver_current = 1 ∧
      (set_ihold_irun 33 0 0 State.init).driver_current ≠ State.init.driver_current) ∧
    ((set_microstep_resolution 9 State.init).out = frameEvents 0xEC 0x09000000 ∧
      (set_microstep_resolution 9 State.init).out ≠ State.init.out ∧
      (set_microstep_resolution 9 State.init).chopper_config = 0x09000000 ∧
      (set_microstep_resolution 9 State.init).chopper_config ≠
        State.init.chopper_config) := by
  have e1 : bitfieldSet 16 4 (bitfieldSet 8 5 (bitfieldSet 0 5 State.init.driver_current
      (Int.toNat ((33 : Int) % 2 ^ 32))) (0 % 256)) (0 % 256) = 1 := by decide
  have e2 : bitfieldSet 24 4 State.init.chopper_config (9 % 256) = 0x09000000 := by decide
  rw [set_ihold_irun_eq, set_microstep_resolution_eq]
  simp only [e1, e2]
  refine ⟨⟨rfl, ?_, trivial, by decide⟩, ⟨rfl, ?_, trivial, by decide⟩⟩
  · simp [State.init, frameEvents]
  · simp [State.init, frameEvents]

/-- C9 (amended): no argument is rejected.  For all arguments,
`set_ihold_irun` stores `i_hold mod 32`, `i_run mod 32` and
`i_hold_delay mod 16` in the fields `ihold`, `irun`, `iholddelay`, keeps every
other bit of the 32-bit word, and transmits the resulting word in one datagram
with register byte `0x90`; `set_microstep_resolution` stores
`resolution mod 16` in `mres`, keeps every other bit, and transmits the
resulting word in one datagram with register byte `0xEC` (address `0x6C`). -/
theorem setters_truncate (i_hold : Int) (i_run i_hold_delay resolution : Nat) (s : State) :
    (DriverCurrent.get .ihold (set_ihold_irun i_hold i_run i_hold_delay s).driver_current
        = Int.toNat (i_hold % 32) ∧
      DriverCurrent.get .irun (set_ihold_irun i_hold i_run i_hold_delay s).driver_current
        = i_run % 32 ∧
      DriverCurrent.get .iholddelay
        (set_ihold_irun i_hold i_run i_hold_delay s).driver_current = i_hold_delay % 16 ∧
      (∀ i, i < 32 → ¬ (i ≤ 4) → ¬ (8 ≤ i ∧ i ≤ 12) → ¬ (16 ≤ i ∧ i ≤ 19) →
        (set_ihold_irun i_hold i_run i_hold_delay s).driver_current.testBit i =
          s.driver_current.testBit i) ∧
      (set_ihold_irun i_hold i_run i_hold_delay s).out = s.out ++
        frameEvents 0x90 (set_ihold_irun i_hold i_run i_hold_delay s).driver_current) ∧
    (ChopperConfig.get .mres (set_microstep_resolution resolution s).chopper_config
        = resolution % 16 ∧
      (∀ i, i < 32 → ¬ (24 ≤ i ∧ i ≤ 27) →
        (set_microstep_resolution resolution s).chopper_config.testBit i =
          s.chopper_config.testBit i) ∧
      (set_microstep_resolution resolution s).out = s.out ++
        frameEvents 0xEC (set_microstep_resolution resolution s).chopper_config) := by
  rw [set_ihold_irun_eq, set_microstep_resolution_eq]
  simp only [DriverCurrent.get_ihold, DriverCurrent.get_irun, DriverCurrent.get_iholddelay,
    ChopperConfig.get_mres]
  refine ⟨⟨?_, ?_, ?_, ?_, trivial⟩, ?_, ?_, trivial⟩
  · rw [bitfieldGet_set_other 16 4 0 5 _ _ (by decide) (by decide) (by decide),
      bitfieldGet_set_other 8 5 0 5 _ _ (by decide) (by decide) (by decide),
      bitfieldGet_set_same 0 5 _ _ (by decide)]
    omega
  · rw [bitfieldGet_set_other 16 4 8 5 _ _ (by decide) (by decide) (by decide),
      bitfieldGet_set_same 8 5 _ _ (by decide)]
    omega
  · rw [bitfieldGet_set_same 16 4 _ _ (by decide)]
    omega
  · intro i hi a1 a2 a3
    rw [bitfieldSet_testBit _ _ _ _ _ (by decide), bitfieldSet_testBit _ _ _ _ _ (by decide),
      bitfieldSet_testBit _ _ _ _ _ (by decide)]
    have b1 : ¬ (16 ≤ i ∧ i < 16 + 4) := by omega
    have b2 : ¬ (8 ≤ i ∧ i < 8 + 5) := by omega
    have b3 : ¬ (0 ≤ i ∧ i < 0 + 5) := by omega
    rw [if_neg b1, if_neg b2, if_neg b3]
    simp [hi]
  · rw [bitfieldGet_set_same 24 4 _ _ (by decide)]
    omega
  · intro i hi a1
    rw [bitfieldSet_testBit _ _ _ _ _ (by decide)]
    have b1 : ¬ (24 ≤ i ∧ i < 24 + 4) := by omega
    simp [b1, hi]

theorem decodedWrites_frameEvents (r v : Nat) (rest : List Event) :
    decodedWrites (frameEvents r v ++ rest) = (r, v % 2 ^ 32) :: decodedWrites rest := by
  have h : v / 2 ^ 24 % 256 * 2 ^ 24 + v / 2 ^ 16 % 256 * 2 ^ 16 + v / 2 ^ 8 % 256 * 2 ^ 8
      + v % 256 = v % 2 ^ 32 := by omega
  simp only [frameEvents, frameBody, List.map, List.cons_append, List.nil_append,
    decodedWrites, h, List.append_eq]

theorem decodedWrites_rampEvents (ks : List Nat) :
    decodedWrites (rampEvents ks) = ks.map (fun k => (0xA2, k % 2 ^ 32)) := by
  induction ks with
  | nil => rfl
  | cons k ks ih =>
    rw [rampEvents, stepEvents, List.append_assoc, decodedWrites_frameEvents]
    simp only [List.cons_append, List.nil_append, decodedWrites, List.append_eq, ih, List.map]

theorem rampEvents_append (xs ys : List Nat) :
    rampEvents (xs ++ ys) = rampEvents xs ++ rampEvents ys := by
  induction xs with
  | nil => rfl
  | cons k ks ih =>
    rw [List.cons_append, rampEvents, rampEvents, ih, List.append_assoc]

theorem linear_acc_control.step_eq (i : Nat) (h : i < 2 ^ 31) (s : State) :
    ({ out := ({ out := (set_vactual (i : Int) s).out ++ [Event.printf (i : Int)],
                 driver_current := (set_vactual (i : Int) s).driver_current,
                 driver_config := (set_vactual (i : Int) s).driver_config,
                 chopper_config := (set_vactual (i : Int) s).chopper_config } : State).out
              ++ [Event.sleep_us 100],
       driver_current := (set_vactual (i : Int) s).driver_current,
       driver_config := (set_vactual (i : Int) s).driver_config,
       chopper_config := (set_vactual (i : Int) s).chopper_config } : State) =
      { s with out := s.out ++ stepEvents i } := by
  have e : Int.toNat ((i : Int) % 2 ^ 32) = i := by omega
  simp only [set_vactual_eq, e, stepEvents, List.append_assoc, List.cons_append,
    List.nil_append]

theorem linear_acc_control.up_eq :
    ∀ (n i : Nat) (s : State), i + n = 5001 →
      linear_acc_control.up i s = { s with out := s.out ++ rampEvents (List.range' i n) } := by
  intro n
  induction n with
  | zero =>
    intro i s h
    rw [linear_acc_control.up]
    have h1 : ¬ (i ≤ 5000) := by omega
    simp [h1, rampEvents]
  | succ n ih =>
    intro i s h
    rw [linear_acc_control.up]
    have h1 : i ≤ 5000 := by omega
    have h2 : (i + 1) % 65536 = i + 1 := by omega
    simp only [h1, if_true, h2]
    rw [linear_acc_control.step_eq i (by omega), ih (i + 1) _ (by omega)]
    simp only [List.range'_succ, rampEvents, List.append_assoc]

theorem linear_acc_control.down_eq :
    ∀ (i : Nat) (s : State), i ≤ 5000 →
      linear_acc_control.down i s =
        { s with out := s.out ++ rampEvents (List.range' 1 i).reverse } := by
  intro i
  induction i with
  | zero =>
    intro s _
    rw [linear_acc_control.down]
    simp [rampEvents]
  | succ i ih =>
    intro s h
    rw [linear_acc_control.down]
    have h1 : i + 1 > 0 := by omega
    have h2 : (i + 1 - 1) % 65536 = i := by omega
    simp only [h1, if_true, h2]
    rw [linear_acc_control.step_eq (i + 1) (by omega), ih _ (by omega)]
    have h3 : (List.range' 1 (i + 1)).reverse = (i + 1) :: (List.range' 1 i).reverse := by
      rw [List.range'_concat, List.reverse_append]
      simp [Nat.add_comm]
    simp only [h3, rampEvents, List.append_assoc]

theorem linear_acc_control.body_eq (s : State) :
    linear_acc_control.body s = { s with out := s.out ++ rampEvents rampBlock } := by
  unfold linear_acc_control.body
  simp only [linear_acc_control.up_eq 5001 0 s (by decide),
    linear_acc_control.down_eq 5000 _ (by decide), rampBlock, rampEvents_append,
    List.append_assoc]

theorem linear_acc_control_eq (passes : Nat) (s : State) :
    linear_acc_control passes s =
      { s with out := s.out ++ rampEvents (rampCounters passes) } := by
  unfold linear_acc_control
  induction passes with
  | zero => simp [rampCounters, rampEvents]
  | succ n ih =>
    rw [Function.iterate_succ_apply', ih, linear_acc_control.body_eq]
    simp only [rampCounters, rampEvents_append, List.append_assoc]

theorem toInt32_of_lt (k : Nat) (h : k < 2 ^ 31) : toInt32 (k % 2 ^ 32) = (k : Int) := by
  unfold toInt32
  have h1 : k % 2 ^ 32 % 2 ^ 32 = k := by omega
  rw [h1, if_pos h]

theorem vactualWrites_rampEvents (ks : List Nat) (h : ∀ k ∈ ks, k < 2 ^ 31) :
    vactualWrites (rampEvents ks) = ks.map (fun (k : Nat) => (k : Int)) := by
  unfold vactualWrites
  rw [decodedWrites_rampEvents]
  have hf : (ks.map (fun k => (0xA2, k % 2 ^ 32))).filter (fun p => decide (p.1 = 0xA2)) =
      ks.map (fun k => (0xA2, k % 2 ^ 32)) := by
    rw [List.filter_eq_self]
    intro a ha
    obtain ⟨k, _, rfl⟩ := List.mem_map.mp ha
    simp
  rw [hf, List.map_map]
  apply List.map_congr_left
  intro k hk
  exact toInt32_of_lt k (h k hk)

theorem rampBlock_bound : ∀ k ∈ rampBlock, k ≤ 5000 := by
  intro k hk
  unfold rampBlock at hk
  rw [List.mem_append, List.mem_reverse, List.mem_range'_1, List.mem_range'_1] at hk
  omega

theorem rampCounters_bound (n : Nat) : ∀ k ∈ rampCounters n, k ≤ 5000 := by
  induction n with
  | zero => intro k hk; simp [rampCounters] at hk
  | succ n ih =>
    intro k hk
    rw [rampCounters, List.mem_append] at hk
    rcases hk with hk | hk
    · exact ih k hk
    · exact rampBlock_bound k hk

theorem rampValue_add_period (n j : Nat) : rampValue (10001 * n + j) = rampValue j := by
  unfold rampValue
  rw [Nat.mul_add_mod]

theorem rampBlock_eq : rampBlock.map (fun (k : Nat) => (k : Int)) = (List.range 10001).map rampValue := by
  apply List.ext_getElem
  · simp [rampBlock]
  · intro j h1 h2
    simp only [List.getElem_map, List.getElem_range]
    have hj : j < 10001 := by simpa using h2
    unfold rampBlock
    by_cases hlt : j < 5001
    · rw [List.getElem_append_left (by simpa using hlt)]
      simp only [List.getElem_range', rampValue]
      have : j % 10001 = j := by omega
      simp only [this]
      have h5 : j ≤ 5000 := by omega
      simp [h5]
    · rw [List.getElem_append_right (by simp; omega)]
      simp only [List.getElem_reverse, List.getElem_range', List.length_range', rampValue]
      have : j % 10001 = j := by omega
      simp only [this]
      have h5 : ¬ (j ≤ 5000) := by omega
      simp only [h5, if_false]
      omega

theorem rampCounters_eq (n : Nat) :
    (rampCounters n).map (fun (k : Nat) => (k : Int)) = (List.range (10001 * n)).map rampValue := by
  induction n with
  | zero => rfl
  | succ n ih =>
    rw [rampCounters, List.map_append, ih, rampBlock_eq, Nat.mul_succ, List.range_add,
      List.map_append, List.map_map]
    refine congrArg _ ?_
    apply List.map_congr_left
    intro j _
    exact (rampValue_add_period n j).symm

theorem linear_acc_control_writes (passes : Nat) (s : State) :
    vactualWrites ((linear_acc_control passes s).out.drop s.out.length) =
      (List.range (10001 * passes)).map rampValue := by
  rw [linear_acc_control_eq]
  simp only [List.drop_left]
  rw [vactualWrites_rampEvents _ (fun k hk => by have := rampCounters_bound passes k hk; omega),
    rampCounters_eq]

theorem rampValue_getElem? (n k : Nat) (h : k < n) :
    ((List.range n).map rampValue)[k]? = some (rampValue k) := by
  rw [List.getElem?_map, List.getElem?_range h]
  rfl

theorem rampValue_getElem?_some (n k : Nat) (a : Int)
    (h : ((List.range n).map rampValue)[k]? = some a) : k < n ∧ a = rampValue k := by
  have hk : k < n := by
    by_contra hc
    have hlen : ((List.range n).map rampValue).length ≤ k := by simp; omega
    rw [List.getElem?_eq_none hlen] at h
    exact Option.noConfusion h
  rw [rampValue_getElem? n k hk] at h
  exact ⟨hk, (Option.some.inj h).symm⟩

/-- C8 (as stated) fails: in one pass of `linear_acc_control` from the initial
state the writes number 5000 and 5001 to VACTUAL are both 5000, so two
consecutive written values do not always differ by exactly 1 and the peak is
written twice in a cycle. -/
theorem ramp_peak_repeated :
    (vactualWrites (linear_acc_control 1 State.init).out)[5000]? = some 5000 ∧
      (vactualWrites (linear_acc_control 1 State.init).out)[5001]? = some 5000 ∧
      ¬ (∀ (k : Nat) (a b : Int),
          (vactualWrites (linear_acc_control 1 State.init).out)[k]? = some a →
          (vactualWrites (linear_acc_control 1 State.init).out)[k + 1]? = some b →
          b - a = 1 ∨ a - b = 1) := by
  have h := linear_acc_control_writes 1 State.init
  have h0 : State.init.out.length = 0 := rfl
  rw [h0, List.drop_zero] at h
  have e0 : (vactualWrites (linear_acc_control 1 State.init).out)[5000]? = some 5000 := by
    rw [h, rampValue_getElem? _ _ (by decide)]; rfl
  have e1 : (vactualWrites (linear_acc_control 1 State.init).out)[5001]? = some 5000 := by
    rw [h, rampValue_getElem? _ _ (by decide)]; rfl
  refine ⟨e0, e1, ?_⟩
  intro hall
  have := hall 5000 5000 5000 e0 e1
  omega

theorem rampValue_succ (k : Nat) :
    (k % 10001 < 5000 → rampValue (k + 1) = rampValue k + 1) ∧
      (k % 10001 = 5000 → rampValue k = 5000 ∧ rampValue (k + 1) = 5000) ∧
      (5000 < k % 10001 → rampValue (k + 1) = rampValue k - 1) ∧
      (k % 10001 = 10000 → rampValue k = 1 ∧ rampValue (k + 1) = 0) := by
  by_cases h1 : k % 10001 ≤ 5000 <;> by_cases h2 : (k + 1) % 10001 ≤ 5000 <;>
    simp only [rampValue, h1, h2, if_true, if_false] <;> omega

theorem rampValue_range (k : Nat) :
    0 ≤ rampValue k ∧ rampValue k ≤ 5000 ∧ (rampValue k = 0 ↔ k % 10001 = 0) ∧
      (rampValue k = 5000 ↔ k % 10001 = 5000 ∨ k % 10001 = 5001) := by
  by_cases h1 : k % 10001 ≤ 5000 <;> simp only [rampValue, h1, if_true, if_false] <;> omega

/-- C8 (amended): after any number of passes, from any state, the values
written to VACTUAL by `linear_acc_control` are `10001` per pass and the write
number `k` is `r` if `r ≤ 5000` and `10001 - r` otherwise, where
`r = k mod 10001`.  Hence consecutive writes rise by exactly 1 up to the peak
5000, the peak is written a second time, then consecutive writes fall by
exactly 1 down to 1 and the next write is 0, from where the ramp rises again;
every value lies in `0..5000`, 0 is written once per cycle and 5000 twice. -/
theorem ramp_sequence (passes : Nat) (s : State) :
    (vactualWrites ((linear_acc_control passes s).out.drop s.out.length)).length
        = 10001 * passes ∧
      (∀ k, k < 10001 * passes →
        (vactualWrites ((linear_acc_control passes s).out.drop s.out.length))[k]? =
          some (if k % 10001 ≤ 5000 then ((k % 10001 : Nat) : Int)
                else ((10001 - k % 10001 : Nat) : Int))) ∧
      (∀ (k : Nat) (a b : Int),
        (vactualWrites ((linear_acc_control passes s).out.drop s.out.length))[k]? = some a →
        (vactualWrites ((linear_acc_control passes s).out.drop s.out.length))[k + 1]? = some b →
        (k % 10001 < 5000 → b = a + 1) ∧
        (k % 10001 = 5000 → a = 5000 ∧ b = 5000) ∧
        (5000 < k % 10001 → b = a - 1) ∧
        (k % 10001 = 10000 → a = 1 ∧ b = 0)) ∧
      (∀ (k : Nat) (a : Int),
        (vactualWrites ((linear_acc_control passes s).out.drop s.out.length))[k]? = some a →
        0 ≤ a ∧ a ≤ 5000 ∧ (a = 0 ↔ k % 10001 = 0) ∧
        (a = 5000 ↔ k % 10001 = 5000 ∨ k % 10001 = 5001)) := by
  rw [linear_acc_control_writes]
  refine ⟨by simp, ?_, ?_, ?_⟩
  · intro k hk
    rw [rampValue_getElem? _ _ hk]
    rfl
  · intro k a b ha hb
    obtain ⟨_, rfl⟩ := rampValue_getElem?_some _ _ _ ha
    obtain ⟨_, rfl⟩ := rampValue_getElem?_some _ _ _ hb
    exact rampValue_succ k
  · intro k a ha
    obtain ⟨_, rfl⟩ := rampValue_getElem?_some _ _ _ ha
    exact rampValue_range k

/-! ## `calcCRC` against the reference CRC-8 -/

theorem shiftLeft_xor (x y m : Nat) : (x ^^^ y) <<< m = (x <<< m) ^^^ (y <<< m) := by
  apply Nat.eq_of_testBit_eq
  intro i
  simp only [Nat.testBit_shiftLeft, Nat.testBit_xor]
  by_cases h : i ≥ m <;> simp [h]

theorem polyOfBits_lt (bs : List Bool) : polyOfBits bs < 2 ^ bs.length := by
  induction bs with
  | nil => simp [polyOfBits]
  | cons b bs ih =>
    rw [polyOfBits, List.length_cons]
    apply Nat.xor_lt_two_pow
    · rw [Nat.shiftLeft_eq, Nat.pow_succ]
      have : b.toNat ≤ 1 := Bool.toNat_le b
      have hp : 0 < 2 ^ bs.length := Nat.two_pow_pos _
      nlinarith
    · exact lt_of_lt_of_le ih (Nat.pow_le_pow_right (by decide) (Nat.le_succ _))

set_option maxRecDepth 100000 in
theorem lfsrStep_facts : ∀ crc, crc < 256 → ∀ b : Bool,
    lfsrStep crc b < 256 ∧
      (((crc <<< 1) ^^^ (b.toNat <<< 8)).testBit 8 = true →
        ((crc <<< 1) ^^^ (b.toNat <<< 8)) ^^^ 0x107 = lfsrStep crc b) ∧
      (((crc <<< 1) ^^^ (b.toNat <<< 8)).testBit 8 = false →
        (crc <<< 1) ^^^ (b.toNat <<< 8) = lfsrStep crc b) := by
  decide

theorem gf2ModAux_lfsr : ∀ (bs : List Bool) (crc : Nat), crc < 256 →
    gf2ModAux 0x107 8 bs.length ((crc <<< bs.length) ^^^ (polyOfBits bs <<< 8)) =
      bs.foldl lfsrStep crc := by
  intro bs
  induction bs with
  | nil =>
    intro crc _
    simp [gf2ModAux, polyOfBits]
  | cons b bs ih =>
    intro crc hcrc
    obtain ⟨hlt, hset, hclr⟩ := lfsrStep_facts crc hcrc b
    have ha : (crc <<< (bs.length + 1)) ^^^ (polyOfBits (b :: bs) <<< 8) =
        (((crc <<< 1) ^^^ (b.toNat <<< 8)) <<< bs.length) ^^^ (polyOfBits bs <<< 8) := by
      rw [polyOfBits, shiftLeft_xor, shiftLeft_xor, ← Nat.shiftLeft_add,
        ← Nat.shiftLeft_add, ← Nat.shiftLeft_add, Nat.xor_assoc,
        Nat.add_comm 1 bs.length, Nat.add_comm 8 bs.length]
    have hbit : ((((crc <<< 1) ^^^ (b.toNat <<< 8)) <<< bs.length) ^^^
        (polyOfBits bs <<< 8)).testBit (8 + bs.length) =
        ((crc <<< 1) ^^^ (b.toNat <<< 8)).testBit 8 := by
      rw [Nat.testBit_xor, Nat.testBit_shiftLeft, Nat.testBit_shiftLeft]
      have h1 : 8 + bs.length ≥ bs.length := by omega
      have h2 : 8 + bs.length ≥ 8 := by omega
      have h3 : 8 + bs.length - bs.length = 8 := by omega
      have h4 : 8 + bs.length - 8 = bs.length := by omega
      simp only [h1, h2, h3, h4, decide_True, Bool.true_and,
        Nat.testBit_lt_two_pow (polyOfBits_lt bs), Bool.xor_false]
    rw [List.length_cons, gf2ModAux, ha, hbit, List.foldl_cons, ← ih _ hlt]
    cases hX : ((crc <<< 1) ^^^ (b.toNat <<< 8)).testBit 8
    · rw [← hclr hX]
      simp
    · have e : ((((crc <<< 1) ^^^ (b.toNat <<< 8)) <<< bs.length) ^^^ (polyOfBits bs <<< 8))
          ^^^ (0x107 <<< bs.length) =
          ((((crc <<< 1) ^^^ (b.toNat <<< 8)) ^^^ 0x107) <<< bs.length) ^^^
            (polyOfBits bs <<< 8) := by
        rw [shiftLeft_xor _ 0x107, Nat.xor_assoc, Nat.xor_comm (polyOfBits bs <<< 8),
          ← Nat.xor_assoc]
      simp only [if_true]
      rw [e, hset hX]

theorem gf2ModAux_skip (g dg m : Nat) (a : Nat) (h : a < 2 ^ (dg + m)) :
    ∀ j, gf2ModAux g dg (m + j) a = gf2ModAux g dg m a := by
  intro j
  induction j with
  | zero => rfl
  | succ j ih =>
    have hlt : a < 2 ^ (dg + (m + j)) :=
      lt_of_lt_of_le h (Nat.pow_le_pow_right (by decide) (by omega))
    rw [← Nat.add_assoc, gf2ModAux, Nat.testBit_lt_two_pow hlt]
    simpa using ih

theorem log2_crc8Generator : Nat.log2 crc8Generator = 8 := by
  have h : crc8Generator ≠ 0 := by decide
  have h1 : 8 ≤ Nat.log2 crc8Generator := (Nat.le_log2 h).2 (by decide)
  have h2 : Nat.log2 crc8Generator < 9 := (Nat.log2_lt h).2 (by decide)
  omega

theorem crc8Reference_eq_foldl (bytes : List Nat) :
    crc8Reference bytes = (messageBits bytes).foldl lfsrStep 0 := by
  have hP := polyOfBits_lt (messageBits bytes)
  have ha : polyOfBits (messageBits bytes) <<< 8 < 2 ^ (8 + (messageBits bytes).length) := by
    rw [Nat.shiftLeft_eq, Nat.pow_add, Nat.mul_comm]
    exact Nat.mul_lt_mul_of_pos_left hP (by decide)
  have core := gf2ModAux_lfsr (messageBits bytes) 0 (by decide)
  rw [Nat.zero_shiftLeft, Nat.zero_xor] at core
  unfold crc8Reference gf2Mod
  rw [log2_crc8Generator, ← core]
  show gf2ModAux 0x107 8 _ _ = _
  rcases Nat.le_total ((polyOfBits (messageBits bytes) <<< 8).log2 + 1)
    (messageBits bytes).length with hle | hle
  · obtain ⟨j, hj⟩ := Nat.exists_eq_add_of_le hle
    have hlt : polyOfBits (messageBits bytes) <<< 8 <
        2 ^ (8 + ((polyOfBits (messageBits bytes) <<< 8).log2 + 1)) :=
      lt_of_lt_of_le Nat.lt_log2_self (Nat.pow_le_pow_right (by decide) (by omega))
    rw [hj, gf2ModAux_skip _ _ _ _ hlt]
  · obtain ⟨j, hj⟩ := Nat.exists_eq_add_of_le hle
    rw [hj, gf2ModAux_skip _ _ _ _ ha]

theorem calcCRC.bodyPair_eq (c cb : Nat) :
    calcCRC.bodyPair (c, cb) = (lfsrStep c (cb.testBit 0), cb >>> 1) := by
  have h1 : cb &&& 1 = (cb.testBit 0).toNat := by
    rw [Nat.toNat_testBit, Nat.and_one_is_mod]; simp
  have h2 : (cb.testBit 0).toNat &&& 1 = (cb.testBit 0).toNat := by
    cases cb.testBit 0 <;> rfl
  simp only [calcCRC.bodyPair, lfsrStep, calcCRC.body, h1, h2]

theorem calcCRC.bodyPair_iterate (n c cb : Nat) :
    calcCRC.bodyPair^[n] (c, cb) =
      (((List.range n).map (fun i => cb.testBit i)).foldl lfsrStep c, cb >>> n) := by
  induction n with
  | zero => rfl
  | succ n ih =>
    rw [Function.iterate_succ_apply', ih, calcCRC.bodyPair_eq, List.range_succ,
      List.map_append, List.foldl_append, Nat.testBit_shiftRight, Nat.add_zero,
      ← Nat.shiftRight_add]
    rfl

theorem calcCRC.inner_eq_foldl (crc b : Nat) :
    calcCRC.inner 0 crc b = (byteBits b).foldl lfsrStep crc := by
  rw [calcCRC.inner_unroll, calcCRC.bodyPair_iterate, byteBits]

theorem foldl_byteBits (bytes : List Nat) (crc : Nat) :
    bytes.foldl (calcCRC.inner 0) crc = (messageBits bytes).foldl lfsrStep crc := by
  induction bytes generalizing crc with
  | nil => rfl
  | cons b bs ih =>
    rw [List.foldl_cons, messageBits, List.foldl_append, ih, calcCRC.inner_eq_foldl]

theorem map_getD_range (d : List Nat) :
    (List.range d.length).map (fun k => d.getD k 0) = d := by
  apply List.ext_getElem
  · simp
  · intro i h1 h2
    simp [List.getD, List.getElem?_eq_getElem h2]

theorem calcCRC_eq_lfsr (d : List Nat) (len : Nat) (hlen : len ≤ 255) (hd : d.length = len) :
    calcCRC d len = (messageBits d).foldl lfsrStep 0 := by
  have h : len % 256 = d.length := by omega
  rw [calcCRC_eq_foldl, h, map_getD_range, foldl_byteBits]

theorem gf2ModAux_multiple (g dg : Nat) :
    ∀ (n a : Nat), ∃ shifts : List Nat, a ^^^ gf2ModAux g dg n a = gf2Multiple g shifts := by
  intro n
  induction n with
  | zero =>
    intro a
    exact ⟨[], by simp [gf2ModAux, gf2Multiple]⟩
  | succ n ih =>
    intro a
    rw [gf2ModAux]
    by_cases hb : a.testBit (dg + n) = true
    · obtain ⟨shifts, hs⟩ := ih (a ^^^ (g <<< n))
      refine ⟨n :: shifts, ?_⟩
      rw [if_pos hb, gf2Multiple, ← hs, Nat.xor_comm a (g <<< n),
        Nat.xor_assoc (g <<< n) a, ← Nat.xor_assoc (g <<< n) (g <<< n), Nat.xor_self,
        Nat.zero_xor]
    · obtain ⟨shifts, hs⟩ := ih a
      exact ⟨shifts, by rw [if_neg hb]; exact hs⟩

theorem gf2ModAux_lt (n : Nat) :
    ∀ a : Nat, a < 2 ^ (8 + n) → gf2ModAux crc8Generator 8 n a < 2 ^ 8 := by
  induction n with
  | zero => intro a h; simpa [gf2ModAux] using h
  | succ n ih =>
    intro a h
    rw [gf2ModAux]
    apply ih
    apply Nat.lt_pow_two_of_testBit
    intro i hi
    have hg : crc8Generator <<< n < 2 ^ (8 + (n + 1)) := by
      rw [Nat.shiftLeft_eq, show 8 + (n + 1) = 9 + n by omega, Nat.pow_add]
      exact Nat.mul_lt_mul_of_pos_right (by decide) (Nat.two_pow_pos n)
    by_cases hb : a.testBit (8 + n) = true
    · rw [if_pos hb, Nat.testBit_xor]
      rcases Nat.eq_or_lt_of_le hi with heq | hgt
      · subst heq
        rw [hb, Nat.testBit_shiftLeft]
        have h1 : 8 + n ≥ n := by omega
        have h2 : 8 + n - n = 8 := by omega
        simp only [h1, h2, decide_True, Bool.true_and]
        decide
      · have hi' : 8 + (n + 1) ≤ i := by omega
        have hp : 2 ^ (8 + (n + 1)) ≤ 2 ^ i := Nat.pow_le_pow_right (by decide) hi'
        rw [Nat.testBit_lt_two_pow (lt_of_lt_of_le h hp),
          Nat.testBit_lt_two_pow (lt_of_lt_of_le hg hp)]
        rfl
    · rw [if_neg hb]
      rcases Nat.eq_or_lt_of_le hi with heq | hgt
      · subst heq
        simpa using hb
      · have hi' : 8 + (n + 1) ≤ i := by omega
        exact Nat.testBit_lt_two_pow
          (lt_of_lt_of_le h (Nat.pow_le_pow_right (by decide) hi'))

theorem gf2Mod_crc8Generator (a : Nat) :
    gf2Mod a crc8Generator < 2 ^ 8 ∧
      ∃ shifts : List Nat, a ^^^ gf2Mod a crc8Generator = gf2Multiple crc8Generator shifts := by
  unfold gf2Mod
  rw [log2_crc8Generator]
  refine ⟨gf2ModAux_lt _ a ?_, gf2ModAux_multiple _ _ _ a⟩
  exact lt_of_lt_of_le Nat.lt_log2_self (Nat.pow_le_pow_right (by decide) (by omega))

/-- C2: for a byte sequence of length `len ≤ 255`, `calcCRC` equals the
reference CRC-8: the remainder, modulo the generator `x^8 + x^2 + x + 1` over
GF(2), of the message polynomial (bytes read from bit 0 to bit 7, first bit
leading) multiplied by `x^8`, with initial value 0 and no final XOR.  The
result has degree below 8 and differs from the shifted message polynomial by
a multiple of the generator. -/
theorem calcCRC_refines_crc8 (datagram : List Nat) (len : Nat) (hlen : len ≤ 255)
    (hd : datagram.length = len) :
    calcCRC datagram len = crc8Reference datagram ∧
      calcCRC datagram len < 2 ^ 8 ∧
      ∃ shifts : List Nat,
        (polyOfBits (messageBits datagram) <<< 8) ^^^ calcCRC datagram len =
          gf2Multiple crc8Generator shifts := by
  have h : calcCRC datagram len = crc8Reference datagram := by
    rw [calcCRC_eq_lfsr datagram len hlen hd, crc8Reference_eq_foldl]
  rw [h]
  exact ⟨rfl, gf2Mod_crc8Generator _⟩

theorem calcCRC_refines_crc8_witness :
    (7 ≤ 255 ∧ [0x05, 0x00, 0xA2, 0xFF, 0xFF, 0xFC, 0x18].length = 7) ∧
    (calcCRC [0x05, 0x00, 0xA2, 0xFF, 0xFF, 0xFC, 0x18] 7 =
        crc8Reference [0x05, 0x00, 0xA2, 0xFF, 0xFF, 0xFC, 0x18] ∧
      calcCRC [0x05, 0x00, 0xA2, 0xFF, 0xFF, 0xFC, 0x18] 7 < 2 ^ 8 ∧
      ∃ shifts : List Nat,
        (polyOfBits (messageBits [0x05, 0x00, 0xA2, 0xFF, 0xFF, 0xFC, 0x18]) <<< 8) ^^^
            calcCRC [0x05, 0x00, 0xA2, 0xFF, 0xFF, 0xFC, 0x18] 7 =
          gf2Multiple crc8Generator shifts) :=
  ⟨by decide, calcCRC_refines_crc8 [0x05, 0x00, 0xA2, 0xFF, 0xFF, 0xFC, 0x18] 7
    (by decide) rfl⟩

theorem getD_seven (b0 b1 b2 b3 b4 b5 b6 b7 : Nat) :
    [b0, b1, b2, b3, b4, b5, b6, b7].getD 7 0 = b7 := rfl

theorem take_seven (b0 b1 b2 b3 b4 b5 b6 b7 : Nat) :
    [b0, b1, b2, b3, b4, b5, b6, b7].take 7 = [b0, b1, b2, b3, b4, b5, b6] := rfl

theorem tmc_write.frame_crc (frame : List Nat) (h : frame.length = 8) (a v : Nat) :
    (tmc_write.frame frame a v).getD 7 0 = calcCRC ((tmc_write.frame frame a v).take 7) 7 := by
  rw [tmc_write.frame_eq frame h, getD_seven, take_seven]

/-- C11: `calcCRC` is a function of the first `len` bytes only: two arrays that
agree on the indices `0 .. len-1` give the same CRC, whatever they hold from
index `len` on; in particular the frame `tmc_write` builds, and so the CRC it
stores in `frame[7]`, is the same for every initial content of the automatic
array `frame`, and is the CRC of the seven bytes stored before it. -/
theorem calcCRC_prefix_only (d d' : List Nat) (len : Nat)
    (h : ∀ i, i < len → d.getD i 0 = d'.getD i 0) :
    calcCRC d len = calcCRC d' len ∧
      (∀ (p x y : List Nat), p.length = len → calcCRC (p ++ x) len = calcCRC (p ++ y) len) ∧
      (∀ (frame frame' : List Nat) (a v : Nat), frame.length = 8 → frame'.length = 8 →
        tmc_write.frame frame a v = tmc_write.frame frame' a v ∧
        (tmc_write.frame frame a v).getD 7 0 =
          calcCRC ((tmc_write.frame frame' a v).take 7) 7) := by
  refine ⟨?_, ?_, ?_⟩
  · apply calcCRC_congr
    intro i hi
    exact h i (lt_of_lt_of_le hi (Nat.mod_le _ _))
  · intro p x y hp
    apply calcCRC_congr
    intro i hi
    have hi' : i < p.length := by
      rw [hp]; exact lt_of_lt_of_le hi (Nat.mod_le _ _)
    simp [List.getD, List.getElem?_append_left hi']
  · intro frame frame' a v hf hf'
    have e : tmc_write.frame frame a v = tmc_write.frame frame' a v := by
      rw [tmc_write.frame_eq frame hf, tmc_write.frame_eq frame' hf']
    refine ⟨e, ?_⟩
    rw [e]
    exact tmc_write.frame_crc frame' hf' a v

theorem calcCRC_prefix_only_witness :
    (∀ i, i < 3 → [0x05, 0x00, 0x90, 0xAA].getD i 0 = [0x05, 0x00, 0x90, 0x55, 0x01].getD i 0) ∧
    (calcCRC [0x05, 0x00, 0x90, 0xAA] 3 = calcCRC [0x05, 0x00, 0x90, 0x55, 0x01] 3 ∧
      (∀ (p x y : List Nat), p.length = 3 → calcCRC (p ++ x) 3 = calcCRC (p ++ y) 3) ∧
      (∀ (frame frame' : List Nat) (a v : Nat), frame.length = 8 → frame'.length = 8 →
        tmc_write.frame frame a v = tmc_write.frame frame' a v ∧
        (tmc_write.frame frame a v).getD 7 0 =
          calcCRC ((tmc_write.frame frame' a v).take 7) 7)) :=
  ⟨by decide, calcCRC_prefix_only [0x05, 0x00, 0x90, 0xAA] [0x05, 0x00, 0x90, 0x55, 0x01] 3
    (by decide)⟩

theorem printfValues_frameEvents (r v : Nat) (rest : List Event) :
    printfValues (frameEvents r v ++ rest) = printfValues rest := by
  simp only [frameEvents, frameBody, List.map, List.cons_append, List.nil_append,
    printfValues, List.append_eq]

theorem printfValues_rampEvents (ks : List Nat) :
    printfValues (rampEvents ks) = ks.map (fun (k : Nat) => (k : Int)) := by
  induction ks with
  | nil => rfl
  | cons k ks ih =>
    rw [rampEvents, stepEvents, List.append_assoc, printfValues_frameEvents]
    simp only [List.cons_append, List.nil_append, printfValues, List.append_eq, ih, List.map]

theorem linear_acc_control.up_step (i : Nat) (t : State) (h : i ≤ 5000) :
    linear_acc_control.up i t =
      linear_acc_control.up (i + 1) { t with out := t.out ++ stepEvents i } := by
  rw [linear_acc_control.up]
  have h2 : (i + 1) % 65536 = i + 1 := by omega
  simp only [h, if_true, h2]
  rw [linear_acc_control.step_eq i (by omega)]

theorem linear_acc_control.down_step (i : Nat) (t : State) (h0 : 0 < i) (h : i ≤ 5000) :
    linear_acc_control.down i t =
      linear_acc_control.down (i - 1) { t with out := t.out ++ stepEvents i } := by
  rw [linear_acc_control.down]
  have h1 : i > 0 := h0
  have h2 : (i - 1) % 65536 = i - 1 := by omega
  simp only [h1, if_true, h2]
  rw [linear_acc_control.step_eq i (by omega)]

theorem linear_acc_control_emitted (passes : Nat) (s : State) :
    (linear_acc_control passes s).out.drop s.out.length = rampEvents (rampCounters passes) := by
  rw [linear_acc_control_eq]
  simp only [List.drop_left]

/-- C12: every value `linear_acc_control` passes to `set_vactual` lies in
`0..5000`.  The events emitted are those of ramp steps with counter values in
`0..5000`; every datagram goes to VACTUAL with a value of at most 5000, so
frame byte 3 never has its top bit set; the value transmitted is the value of
the loop counter (the one `printf` shows); and the 16-bit counters never wrap:
each iteration of either loop hands `i + 1`, respectively `i - 1`, to the
next. -/
theorem ramp_velocity_bounds (passes : Nat) (s : State) :
    ((linear_acc_control passes s).out.drop s.out.length = rampEvents (rampCounters passes) ∧
        ∀ k, k ∈ rampCounters passes → k ≤ 5000) ∧
      (∀ v, v ∈ vactualWrites ((linear_acc_control passes s).out.drop s.out.length) →
        0 ≤ v ∧ v ≤ 5000) ∧
      (∀ p, p ∈ decodedWrites ((linear_acc_control passes s).out.drop s.out.length) →
        p.1 = 0xA2 ∧ p.2 ≤ 5000 ∧ p.2 / 2 ^ 24 % 256 < 128) ∧
      printfValues ((linear_acc_control passes s).out.drop s.out.length) =
        vactualWrites ((linear_acc_control passes s).out.drop s.out.length) ∧
      (∀ (i : Nat) (t : State), i ≤ 5000 →
        linear_acc_control.up i t =
          linear_acc_control.up (i + 1) { t with out := t.out ++ stepEvents i }) ∧
      (∀ (i : Nat) (t : State), 0 < i → i ≤ 5000 →
        linear_acc_control.down i t =
          linear_acc_control.down (i - 1) { t with out := t.out ++ stepEvents i }) := by
  have hb := rampCounters_bound passes
  have hb' : ∀ k ∈ rampCounters passes, k < 2 ^ 31 := fun k hk => by
    have := hb k hk; omega
  rw [linear_acc_control_emitted]
  refine ⟨⟨rfl, hb⟩, ?_, ?_, ?_, ?_, ?_⟩
  · intro v hv
    rw [vactualWrites_rampEvents _ hb'] at hv
    obtain ⟨k, hk, rfl⟩ := List.mem_map.mp hv
    have := hb k hk
    omega
  · intro p hp
    rw [decodedWrites_rampEvents] at hp
    obtain ⟨k, hk, rfl⟩ := List.mem_map.mp hp
    have := hb k hk
    refine ⟨rfl, ?_, ?_⟩
    · show k % 2 ^ 32 ≤ 5000
      omega
    · show k % 2 ^ 32 / 2 ^ 24 % 256 < 128
      omega
  · rw [printfValues_rampEvents, vactualWrites_rampEvents _ hb']
  · intro i t h
    exact linear_acc_control.up_step i t h
  · intro i t h0 h
    exact linear_acc_control.down_step i t h0 h

theorem vact_gconf_control.toggle_body_eq (d : Bool) (t : State) :
    vact_gconf_control.body (d, t) =
      (!d, { t with
        driver_config := bitfieldSet 3 1 t.driver_config d.toNat
        out := t.out ++ (frameEvents 0x80 (bitfieldSet 3 1 t.driver_config d.toNat) ++
          (frameEvents 0xA2 1000 ++ [Event.sleep_ms 1000])) }) := by
  have e : Int.toNat ((1000 : Int) % 2 ^ 32) = 1000 := by decide
  simp only [vact_gconf_control.body, set_direction_eq, set_vactual_eq, e, List.append_assoc]

theorem shaft_word : ∀ d : Bool,
    bitfieldSet 3 1 0 d.toNat = (if d = true then 2 ^ 3 else 0) ∧
      bitfieldSet 3 1 (2 ^ 3) d.toNat = (if d = true then 2 ^ 3 else 0) := by
  decide

theorem vact_gconf_control.invariant (s : State) (hs : s.driver_config = 0) (k : Nat) :
    (vact_gconf_control.body^[k] (true, s)).1 = decide (k % 2 = 0) ∧
      ((vact_gconf_control.body^[k] (true, s)).2.driver_config = 0 ∨
        (vact_gconf_control.body^[k] (true, s)).2.driver_config = 2 ^ 3) ∧
      (vact_gconf_control.body^[k] (true, s)).2.driver_current = s.driver_current ∧
      (vact_gconf_control.body^[k] (true, s)).2.chopper_config = s.chopper_config := by
  induction k with
  | zero => exact ⟨rfl, Or.inl hs, rfl, rfl⟩
  | succ k ih =>
    rw [Function.iterate_succ_apply']
    obtain ⟨h1, h2, h3, h4⟩ := ih
    generalize vact_gconf_control.body^[k] (true, s) = p at h1 h2 h3 h4
    obtain ⟨d, t⟩ := p
    simp only at h1 h2 h3 h4
    rw [vact_gconf_control.toggle_body_eq]
    refine ⟨?_, ?_, h3, h4⟩
    · show (!d) = decide ((k + 1) % 2 = 0)
      rw [h1]
      by_cases hk : k % 2 = 0
      · have : ¬ ((k + 1) % 2 = 0) := by omega
        simp [hk, this]
      · have : (k + 1) % 2 = 0 := by omega
        simp [hk, this]
    · show bitfieldSet 3 1 t.driver_config d.toNat = 0 ∨
        bitfieldSet 3 1 t.driver_config d.toNat = 2 ^ 3
      rcases h2 with h2 | h2 <;> rw [h2]
      · rw [(shaft_word d).1]; cases d <;> simp
      · rw [(shaft_word d).2]; cases d <;> simp

/-- C13: started on the zero global-config word, iteration number `k` (from 0)
of `vact_gconf_control` emits, in this order, one datagram with register byte
`0x80` (address `0x00`) whose value has the shaft bit (bit 3) equal to 1 for
even `k` and 0 for odd `k` and every other bit 0, one datagram with register
byte `0xA2` (address `0x22`) and value 1000, and a 1000 ms sleep; the word
stored afterwards is the one transmitted. -/
theorem direction_toggle (k : Nat) (s : State) (hs : s.driver_config = 0) :
    (vact_gconf_control (k + 1) s).out =
        (vact_gconf_control k s).out ++
          (frameEvents 0x80 (if k % 2 = 0 then 2 ^ 3 else 0) ++
            (frameEvents 0xA2 1000 ++ [Event.sleep_ms 1000])) ∧
      decodedWrites (frameEvents 0x80 (if k % 2 = 0 then 2 ^ 3 else 0) ++
          (frameEvents 0xA2 1000 ++ [Event.sleep_ms 1000])) =
        [(0x80, if k % 2 = 0 then 2 ^ 3 else 0), (0xA2, 1000)] ∧
      (vact_gconf_control (k + 1) s).driver_config = (if k % 2 = 0 then 2 ^ 3 else 0) := by
  obtain ⟨h1, h2, _, _⟩ := vact_gconf_control.invariant s hs k
  have hw : bitfieldSet 3 1 (vact_gconf_control.body^[k] (true, s)).2.driver_config
      (vact_gconf_control.body^[k] (true, s)).1.toNat = (if k % 2 = 0 then 2 ^ 3 else 0) := by
    rw [h1]
    rcases h2 with h2 | h2 <;> rw [h2]
    · rw [(shaft_word _).1]; simp
    · rw [(shaft_word _).2]; simp
  have hstep : vact_gconf_control.body^[k + 1] (true, s) =
      vact_gconf_control.body ((vact_gconf_control.body^[k] (true, s)).1,
        (vact_gconf_control.body^[k] (true, s)).2) := by
    rw [Function.iterate_succ_apply']
  refine ⟨?_, ?_, ?_⟩
  · unfold vact_gconf_control
    rw [hstep, vact_gconf_control.toggle_body_eq, hw]
  · rw [decodedWrites_frameEvents, decodedWrites_frameEvents]
    have e1 : (if k % 2 = 0 then 2 ^ 3 else 0) % 2 ^ 32 = (if k % 2 = 0 then 2 ^ 3 else 0) := by
      split <;> rfl
    rw [e1]
    rfl
  · unfold vact_gconf_control
    rw [hstep, vact_gconf_control.toggle_body_eq, hw]

theorem direction_toggle_witness :
    State.init.driver_config = 0 ∧
    ((vact_gconf_control (4 + 1) State.init).out =
        (vact_gconf_control 4 State.init).out ++
          (frameEvents 0x80 (if 4 % 2 = 0 then 2 ^ 3 else 0) ++
            (frameEvents 0xA2 1000 ++ [Event.sleep_ms 1000])) ∧
      decodedWrites (frameEvents 0x80 (if 4 % 2 = 0 then 2 ^ 3 else 0) ++
          (frameEvents 0xA2 1000 ++ [Event.sleep_ms 1000])) =
        [(0x80, if 4 % 2 = 0 then 2 ^ 3 else 0), (0xA2, 1000)] ∧
      (vact_gconf_control (4 + 1) State.init).driver_config =
        (if 4 % 2 = 0 then 2 ^ 3 else 0)) :=
  ⟨rfl, direction_toggle 4 State.init rfl⟩

theorem only_vact_control.alternating_body_eq (s : State) :
    only_vact_control.body s =
      { s with out := s.out ++ (frameEvents 0xA2 1000 ++ (Event.sleep_ms 1000 ::
        (frameEvents 0xA2 (2 ^ 32 - 1000) ++ [Event.sleep_ms 1000]))) } := by
  have e1 : Int.toNat ((1000 : Int) % 2 ^ 32) = 1000 := by decide
  have e2 : Int.toNat ((-1000 : Int) % 2 ^ 32) = 2 ^ 32 - 1000 := by decide
  simp only [only_vact_control.body, set_vactual_eq, e1, e2, List.append_assoc,
    List.cons_append, List.nil_append]

theorem only_vact_control_eq (passes : Nat) (s : State) :
    only_vact_control passes s = { s with out := s.out ++ alternatingEvents passes } := by
  unfold only_vact_control
  induction passes with
  | zero => simp [alternatingEvents]
  | succ n ih =>
    rw [Function.iterate_succ_apply', ih, only_vact_control.alternating_body_eq]
    simp only [alternatingEvents, List.append_assoc]

theorem decodedWrites_sleep_ms (ms : Nat) (rest : List Event) :
    decodedWrites (Event.sleep_ms ms :: rest) = decodedWrites rest := by
  simp only [decodedWrites]

theorem decodedWrites_alternating_block (rest : List Event) :
    decodedWrites ((frameEvents 0xA2 1000 ++ (Event.sleep_ms 1000 ::
        (frameEvents 0xA2 (2 ^ 32 - 1000) ++ [Event.sleep_ms 1000]))) ++ rest) =
      (0xA2, 1000) :: (0xA2, 2 ^ 32 - 1000) :: decodedWrites rest := by
  rw [List.append_assoc, decodedWrites_frameEvents, List.cons_append, decodedWrites_sleep_ms,
    List.append_assoc, decodedWrites_frameEvents, List.cons_append, decodedWrites_sleep_ms,
    List.nil_append]
  rfl

theorem range_two_mul_succ (n : Nat) :
    List.range (2 * (n + 1)) = List.range (2 * n) ++ [2 * n, 2 * n + 1] := by
  rw [show 2 * (n + 1) = 2 * n + 1 + 1 by omega, List.range_succ, List.range_succ,
    List.append_assoc]
  rfl

theorem decodedWrites_alternatingEvents (passes : Nat) :
    ∀ rest : List Event,
      decodedWrites (alternatingEvents passes ++ rest) =
        (List.range (2 * passes)).map
            (fun k => (0xA2, if k % 2 = 0 then 1000 else 2 ^ 32 - 1000)) ++
          decodedWrites rest := by
  induction passes with
  | zero => intro rest; rfl
  | succ n ih =>
    intro rest
    rw [alternatingEvents, List.append_assoc, ih, decodedWrites_alternating_block,
      range_two_mul_succ, List.map_append, List.append_assoc]
    have h0 : (2 * n) % 2 = 0 := by omega
    have h1 : ¬ ((2 * n + 1) % 2 = 0) := by omega
    simp only [List.map, h0, h1, if_true, if_false, List.cons_append, List.nil_append]

theorem vactualWrites_alternatingEvents (passes : Nat) :
    vactualWrites (alternatingEvents passes) =
      (List.range (2 * passes)).map (fun k => if k % 2 = 0 then (1000 : Int) else -1000) := by
  have h := decodedWrites_alternatingEvents passes []
  rw [List.append_nil] at h
  unfold vactualWrites
  rw [h]
  have h2 : decodedWrites [] = [] := rfl
  rw [h2, List.append_nil]
  have hf : ((List.range (2 * passes)).map
      (fun k => ((0xA2 : Nat), if k % 2 = 0 then 1000 else 2 ^ 32 - 1000))).filter
        (fun p => decide (p.1 = 0xA2)) =
      (List.range (2 * passes)).map
        (fun k => ((0xA2 : Nat), if k % 2 = 0 then 1000 else 2 ^ 32 - 1000)) := by
    rw [List.filter_eq_self]
    intro a ha
    obtain ⟨k, _, rfl⟩ := List.mem_map.mp ha
    simp
  rw [hf, List.map_map]
  apply List.map_congr_left
  intro k _
  show toInt32 (if k % 2 = 0 then 1000 else 2 ^ 32 - 1000) = _
  by_cases hk : k % 2 = 0
  · rw [if_pos hk, if_pos hk]; decide
  · rw [if_neg hk, if_neg hk]; decide

/-- C14: `only_vact_control` changes no register word (the global config and
its shaft bit included) and emits per pass exactly a VACTUAL datagram with
value 1000, a 1000 ms sleep, a VACTUAL datagram with the encoding of -1000 and
a 1000 ms sleep.  Every datagram of its trace has register byte `0xA2`
(address `0x22`), none goes to address `0x00`, and the velocities written are
`+1000, -1000, +1000, ...` starting with `+1000`. -/
theorem bidirectional_constant (passes : Nat) (s : State) :
    (only_vact_control passes s).driver_config = s.driver_config ∧
      (only_vact_control passes s).driver_current = s.driver_current ∧
      (only_vact_control passes s).chopper_config = s.chopper_config ∧
      (only_vact_control (passes + 1) s).out =
        (only_vact_control passes s).out ++
          (frameEvents 0xA2 1000 ++ (Event.sleep_ms 1000 ::
            (frameEvents 0xA2 (2 ^ 32 - 1000) ++ [Event.sleep_ms 1000]))) ∧
      (∀ p, p ∈ decodedWrites ((only_vact_control passes s).out.drop s.out.length) →
        p.1 = 0xA2 ∧ p.1 ≠ 0x80) ∧
      vactualWrites ((only_vact_control passes s).out.drop s.out.length) =
        (List.range (2 * passes)).map
          (fun k => if k % 2 = 0 then (1000 : Int) else -1000) := by
  rw [only_vact_control_eq, only_vact_control_eq]
  simp only [List.drop_left]
  refine ⟨trivial, trivial, trivial, ?_, ?_, vactualWrites_alternatingEvents passes⟩
  · simp only [alternatingEvents, List.append_assoc]
  · intro p hp
    have h := decodedWrites_alternatingEvents passes []
    rw [List.append_nil] at h
    rw [h] at hp
    have h2 : decodedWrites [] = [] := rfl
    rw [h2, List.append_nil] at hp
    obtain ⟨k, _, rfl⟩ := List.mem_map.mp hp
    refine ⟨rfl, ?_⟩
    show (0xA2 : Nat) ≠ 0x80
    decide

/-- C15: for every argument triple of `set_ihold_irun`, out-of-range and
negative values included, each argument is reduced modulo its field width
(`ihold = i_hold mod 32`, `irun = i_run mod 32`,
`iholddelay = i_hold_delay mod 16`) and nothing spills: the reserved bits
7..5, 15..13 and 31..20 of the `DriverCurrent` word keep their value; for
example `set_ihold_irun(-1, 32, 16)` on the zero word gives `0x0000001F`. -/
theorem set_ihold_irun_modular (i_hold : Int) (i_run i_hold_delay : Nat) (s : State) :
    DriverCurrent.get .ihold (set_ihold_irun i_hold i_run i_hold_delay s).driver_current
        = Int.toNat (i_hold % 32) ∧
      DriverCurrent.get .irun (set_ihold_irun i_hold i_run i_hold_delay s).driver_current
        = i_run % 32 ∧
      DriverCurrent.get .iholddelay
        (set_ihold_irun i_hold i_run i_hold_delay s).driver_current = i_hold_delay % 16 ∧
      (∀ i, (5 ≤ i ∧ i ≤ 7) ∨ (13 ≤ i ∧ i ≤ 15) ∨ (20 ≤ i ∧ i ≤ 31) →
        (set_ihold_irun i_hold i_run i_hold_delay s).driver_current.testBit i =
          s.driver_current.testBit i) ∧
      (set_ihold_irun (-1) 32 16 State.init).driver_current = 0x0000001F := by
  rw [set_ihold_irun_eq, set_ihold_irun_eq]
  simp only [DriverCurrent.get_ihold, DriverCurrent.get_irun, DriverCurrent.get_iholddelay]
  refine ⟨?_, ?_, ?_, ?_, ?_⟩
  · rw [bitfieldGet_set_other 16 4 0 5 _ _ (by decide) (by decide) (by decide),
      bitfieldGet_set_other 8 5 0 5 _ _ (by decide) (by decide) (by decide),
      bitfieldGet_set_same 0 5 _ _ (by decide)]
    omega
  · rw [bitfieldGet_set_other 16 4 8 5 _ _ (by decide) (by decide) (by decide),
      bitfieldGet_set_same 8 5 _ _ (by decide)]
    omega
  · rw [bitfieldGet_set_same 16 4 _ _ (by decide)]
    omega
  · intro i hi
    rw [bitfieldSet_testBit _ _ _ _ _ (by decide), bitfieldSet_testBit _ _ _ _ _ (by decide),
      bitfieldSet_testBit _ _ _ _ _ (by decide)]
    have b1 : ¬ (16 ≤ i ∧ i < 16 + 4) := by omega
    have b2 : ¬ (8 ≤ i ∧ i < 8 + 5) := by omega
    have b3 : ¬ (0 ≤ i ∧ i < 0 + 5) := by omega
    have b4 : i < 32 := by omega
    rw [if_neg b1, if_neg b2, if_neg b3]
    simp [b4]
  · decide

set_option maxRecDepth 100000 in
theorem lfsrStep_testBit : ∀ c, c < 256 → ∀ b : Bool, ∀ i, i < 8 →
    (lfsrStep c b).testBit i =
      xor (decide (1 ≤ i) && c.testBit (i - 1)) (decide (i < 3) && xor (c.testBit 7) b) := by
  decide

theorem lfsrStep_lt (c : Nat) (hc : c < 256) (b : Bool) : lfsrStep c b < 256 :=
  (lfsrStep_facts c hc b).1

theorem lfsrStep_xor (c1 c2 : Nat) (h1 : c1 < 256) (h2 : c2 < 256) (b1 b2 : Bool) :
    lfsrStep (c1 ^^^ c2) (xor b1 b2) = lfsrStep c1 b1 ^^^ lfsrStep c2 b2 := by
  have h12 : c1 ^^^ c2 < 256 := Nat.xor_lt_two_pow (n := 8) h1 h2
  apply Nat.eq_of_testBit_eq
  intro i
  by_cases hi : i < 8
  · rw [Nat.testBit_xor, lfsrStep_testBit _ h12 _ i hi, lfsrStep_testBit _ h1 _ i hi,
      lfsrStep_testBit _ h2 _ i hi, Nat.testBit_xor, Nat.testBit_xor]
    generalize c1.testBit (i - 1) = p1
    generalize c2.testBit (i - 1) = p2
    generalize c1.testBit 7 = q1
    generalize c2.testBit 7 = q2
    generalize decide (1 ≤ i) = u
    generalize decide (i < 3) = w
    cases p1 <;> cases p2 <;> cases q1 <;> cases q2 <;> cases u <;> cases w <;>
      cases b1 <;> cases b2 <;> rfl
  · have hp : (2 : Nat) ^ 8 ≤ 2 ^ i := Nat.pow_le_pow_right (by decide) (by omega)
    rw [Nat.testBit_xor,
      Nat.testBit_lt_two_pow (lt_of_lt_of_le (lfsrStep_lt _ h12 _) hp),
      Nat.testBit_lt_two_pow (lt_of_lt_of_le (lfsrStep_lt _ h1 _) hp),
      Nat.testBit_lt_two_pow (lt_of_lt_of_le (lfsrStep_lt _ h2 _) hp)]
    rfl

theorem foldl_lfsrStep_lt (bs : List Bool) : ∀ c, c < 256 → bs.foldl lfsrStep c < 256 := by
  induction bs with
  | nil => intro c hc; exact hc
  | cons b bs ih => intro c hc; exact ih _ (lfsrStep_lt c hc b)

theorem foldl_lfsrStep_xor (bs1 : List Bool) :
    ∀ (bs2 : List Bool) (c1 c2 : Nat), bs1.length = bs2.length → c1 < 256 → c2 < 256 →
      (List.zipWith xor bs1 bs2).foldl lfsrStep (c1 ^^^ c2) =
        bs1.foldl lfsrStep c1 ^^^ bs2.foldl lfsrStep c2 := by
  induction bs1 with
  | nil =>
    intro bs2 c1 c2 hl _ _
    have : bs2 = [] := List.length_eq_zero.mp hl.symm
    subst this
    rfl
  | cons b1 bs1 ih =>
    intro bs2 c1 c2 hl h1 h2
    match bs2, hl with
    | b2 :: bs2, hl =>
      rw [List.zipWith_cons_cons, List.foldl_cons, List.foldl_cons, List.foldl_cons,
        lfsrStep_xor c1 c2 h1 h2]
      exact ih bs2 _ _ (by simpa using hl) (lfsrStep_lt c1 h1 b1) (lfsrStep_lt c2 h2 b2)

theorem byteBits_xor (a b : Nat) :
    byteBits (a ^^^ b) = List.zipWith xor (byteBits a) (byteBits b) := by
  simp only [byteBits, List.range, List.range.loop, List.map, Nat.testBit_xor,
    List.zipWith_cons_cons, List.zipWith_nil_left]

theorem byteBits_length (a : Nat) : (byteBits a).length = 8 := by
  simp [byteBits]

theorem messageBits_length (x : List Nat) : (messageBits x).length = 8 * x.length := by
  induction x with
  | nil => rfl
  | cons a x ih => rw [messageBits, List.length_append, byteBits_length, ih, List.length_cons]; omega

theorem messageBits_xor (x : List Nat) :
    ∀ y : List Nat, x.length = y.length →
      messageBits (List.zipWith (fun a b => a ^^^ b) x y) =
        List.zipWith xor (messageBits x) (messageBits y) := by
  induction x with
  | nil =>
    intro y hl
    have : y = [] := List.length_eq_zero.mp hl.symm
    subst this
    rfl
  | cons a x ih =>
    intro y hl
    match y, hl with
    | b :: y, hl =>
      rw [List.zipWith_cons_cons, messageBits, messageBits, messageBits, byteBits_xor,
        ih y (by simpa using hl),
        List.zipWith_append _ _ _ _ _ (by rw [byteBits_length, byteBits_length])]

theorem calcCRC_xor (x y : List Nat) (len : Nat) (hlen : len ≤ 255)
    (hx : x.length = len) (hy : y.length = len) :
    calcCRC (List.zipWith (fun a b => a ^^^ b) x y) len = calcCRC x len ^^^ calcCRC y len := by
  have hz : (List.zipWith (fun a b => a ^^^ b) x y).length = len := by
    rw [List.length_zipWith, hx, hy, Nat.min_self]
  rw [calcCRC_eq_lfsr _ len hlen hz, calcCRC_eq_lfsr x len hlen hx,
    calcCRC_eq_lfsr y len hlen hy, messageBits_xor x y (by rw [hx, hy])]
  have h := foldl_lfsrStep_xor (messageBits x) (messageBits y) 0 0
    (by rw [messageBits_length, messageBits_length, hx, hy]) (by decide) (by decide)
  rw [Nat.xor_self] at h
  exact h

/-- C17: `calcCRC` is linear over GF(2): for two byte sequences of the same
length `len`, the CRC of their bytewise XOR is the XOR of their CRCs; the CRC
of an all-zero sequence of any length, `len = 0` included, is 0. -/
theorem calcCRC_linear (x y : List Nat) (len : Nat) (hlen : len ≤ 255)
    (hx : x.length = len) (hy : y.length = len) :
    calcCRC (List.zipWith (fun a b => a ^^^ b) x y) len = calcCRC x len ^^^ calcCRC y len ∧
      calcCRC (List.replicate len 0) len = 0 ∧
      calcCRC [] 0 = 0 := by
  refine ⟨calcCRC_xor x y len hlen hx hy, ?_, ?_⟩
  · have h := calcCRC_xor (List.replicate len 0) (List.replicate len 0) len hlen
      (List.length_replicate _ _) (List.length_replicate _ _)
    rw [List.zipWith_replicate', Nat.xor_self, Nat.xor_self] at h
    exact h
  · have h := calcCRC_xor [] [] 0 (by decide) rfl rfl
    rw [Nat.xor_self] at h
    exact h

theorem calcCRC_linear_witness :
    (7 ≤ 255 ∧ [0x05, 0x00, 0x90, 0x00, 0x00, 0x00, 0x01].length = 7 ∧
      [0x00, 0x00, 0x32, 0xFF, 0xFF, 0xFC, 0x19].length = 7) ∧
    (calcCRC (List.zipWith (fun a b => a ^^^ b) [0x05, 0x00, 0x90, 0x00, 0x00, 0x00, 0x01]
          [0x00, 0x00, 0x32, 0xFF, 0xFF, 0xFC, 0x19]) 7 =
        calcCRC [0x05, 0x00, 0x90, 0x00, 0x00, 0x00, 0x01] 7 ^^^
          calcCRC [0x00, 0x00, 0x32, 0xFF, 0xFF, 0xFC, 0x19] 7 ∧
      calcCRC (List.replicate 7 0) 7 = 0 ∧
      calcCRC [] 0 = 0) :=
  ⟨by decide, calcCRC_linear [0x05, 0x00, 0x90, 0x00, 0x00, 0x00, 0x01]
    [0x00, 0x00, 0x32, 0xFF, 0xFF, 0xFC, 0x19] 7 (by decide) rfl rfl⟩

set_option maxRecDepth 100000 in
theorem unit_crc_ne_zero : ∀ i, i < 7 → ∀ j, j < 8 →
    (messageBits ((List.replicate 7 0).set i (2 ^ j))).foldl lfsrStep 0 ≠ 0 := by
  decide

theorem flip_eq_zipWith (x y : List Nat) (hx : x.length = 7) (hy : y.length = 7)
    (i j : Nat) (hi : i < 7)
    (hsame : ∀ k, k < 7 → k ≠ i → y.getD k 0 = x.getD k 0)
    (hflip : y.getD i 0 = x.getD i 0 ^^^ 2 ^ j) :
    y = List.zipWith (fun a b => a ^^^ b) x ((List.replicate 7 0).set i (2 ^ j)) := by
  apply List.ext_getElem
  · simp [hx, hy]
  · intro k h1 h2
    have hk : k < 7 := by rw [hy] at h1; exact h1
    have hkx : k < x.length := by rw [hx]; exact hk
    have gy : y.getD k 0 = y[k] := by
      rw [List.getD_eq_getElem?_getD, List.getElem?_eq_getElem h1]; rfl
    have gx : x.getD k 0 = x[k] := by
      rw [List.getD_eq_getElem?_getD, List.getElem?_eq_getElem hkx]; rfl
    rw [List.getElem_zipWith, List.getElem_set]
    by_cases hki : k = i
    · subst hki
      rw [← gy, hflip, gx]
      simp
    · have hik : ¬ (i = k) := fun h => hki h.symm
      rw [← gy, hsame k hk hki, gx, if_neg hik, List.getElem_replicate, Nat.xor_zero]

/-- C16: two 7-byte sequences that differ in exactly one bit (bit `j` of byte
`i`, any of the 56 positions) have different `calcCRC` values for `len = 7`. -/
theorem calcCRC_single_bit (x y : List Nat) (hx : x.length = 7) (hy : y.length = 7)
    (i j : Nat) (hi : i < 7) (hj : j < 8)
    (hsame : ∀ k, k < 7 → k ≠ i → y.getD k 0 = x.getD k 0)
    (hflip : y.getD i 0 = x.getD i 0 ^^^ 2 ^ j) :
    calcCRC y 7 ≠ calcCRC x 7 := by
  have he : ((List.replicate 7 0).set i (2 ^ j)).length = 7 := by simp
  rw [flip_eq_zipWith x y hx hy i j hi hsame hflip,
    calcCRC_xor x _ 7 (by decide) hx he, calcCRC_eq_lfsr _ 7 (by decide) he]
  intro h
  have hz : (messageBits ((List.replicate 7 0).set i (2 ^ j))).foldl lfsrStep 0 = 0 := by
    have h' := congrArg (fun t => calcCRC x 7 ^^^ t) h
    simp only [← Nat.xor_assoc, Nat.xor_self, Nat.zero_xor] at h'
    exact h'
  exact unit_crc_ne_zero i hi j hj hz

theorem calcCRC_single_bit_witness :
    ([0x05, 0x00, 0x90, 0x00, 0x00, 0x00, 0x01].length = 7 ∧
      [0x05, 0x00, 0x90, 0x00, 0x20, 0x00, 0x01].length = 7 ∧ 4 < 7 ∧ 5 < 8 ∧
      (∀ k, k < 7 → k ≠ 4 → [0x05, 0x00, 0x90, 0x00, 0x20, 0x00, 0x01].getD k 0 =
        [0x05, 0x00, 0x90, 0x00, 0x00, 0x00, 0x01].getD k 0) ∧
      [0x05, 0x00, 0x90, 0x00, 0x20, 0x00, 0x01].getD 4 0 =
        [0x05, 0x00, 0x90, 0x00, 0x00, 0x00, 0x01].getD 4 0 ^^^ 2 ^ 5) ∧
    calcCRC [0x05, 0x00, 0x90, 0x00, 0x20, 0x00, 0x01] 7 ≠
      calcCRC [0x05, 0x00, 0x90, 0x00, 0x00, 0x00, 0x01] 7 :=
  ⟨by decide, calcCRC_single_bit [0x05, 0x00, 0x90, 0x00, 0x00, 0x00, 0x01]
    [0x05, 0x00, 0x90, 0x00, 0x20, 0x00, 0x01] rfl rfl 4 5 (by decide) (by decide)
    (by decide) (by decide)⟩

theorem rampBlock_length : rampBlock.length = 10001 := by
  simp [rampBlock]

theorem rampBlock_rising (k : Nat) (h : k < 5001) : rampBlock[k]? = some k := by
  unfold rampBlock
  rw [List.getElem?_append_left (by simpa using h), List.getElem?_range' _ _ h]
  simp

theorem rampBlock_falling (k : Nat) (h : k < 5000) : rampBlock[5001 + k]? = some (5000 - k) := by
  unfold rampBlock
  rw [List.getElem?_append_right (by simp), List.length_range',
    show 5001 + k - 5001 = k by omega,
    List.getElem?_reverse (by simpa using h), List.length_range',
    List.getElem?_range' _ _ (by omega)]
  congr 1
  omega

/-- C18: both inner loops of `linear_acc_control` terminate (the rising loop
from 0 and the falling loop from 5000 return after the steps for the counters
`0..5000` and `5000..1`); one pass of the outer loop body writes to VACTUAL
exactly the 10001 values `0, 1, .., 5000, 5000, 4999, .., 1`, each write followed
by the `printf` of the value and a 100 µs sleep; the sequence written by the
whole mode is this block repeated once per pass. -/
theorem ramp_pass_sequence (passes : Nat) (s : State) :
    (linear_acc_control.up 0 s = { s with out := s.out ++ rampEvents (List.range' 0 5001) } ∧
      linear_acc_control.down 5000 s =
        { s with out := s.out ++ rampEvents (List.range' 1 5000).reverse }) ∧
    ((linear_acc_control.body s).out.drop s.out.length = rampEvents rampBlock ∧
      vactualWrites ((linear_acc_control.body s).out.drop s.out.length) =
        rampBlock.map (fun (k : Nat) => (k : Int)) ∧
      rampBlock.length = 10001 ∧
      (∀ k, k < 5001 → rampBlock[k]? = some k) ∧
      (∀ k, k < 5000 → rampBlock[5001 + k]? = some (5000 - k))) ∧
    ((∀ k, stepEvents k = frameEvents 0xA2 k ++ [Event.printf (k : Int), Event.sleep_us 100]) ∧
      (∀ k ks, rampEvents (k :: ks) = stepEvents k ++ rampEvents ks)) ∧
    (linear_acc_control (passes + 1) s =
        linear_acc_control.body (linear_acc_control passes s) ∧
      (linear_acc_control passes s).out.drop s.out.length = rampEvents (rampCounters passes) ∧
      vactualWrites ((linear_acc_control passes s).out.drop s.out.length) =
        (rampCounters passes).map (fun (k : Nat) => (k : Int)) ∧
      rampCounters 0 = [] ∧
      rampCounters (passes + 1) = rampCounters passes ++ rampBlock) := by
  have hb : ∀ k ∈ rampBlock, k < 2 ^ 31 := fun k hk => by
    have := rampBlock_bound k hk; omega
  have hc : ∀ k ∈ rampCounters passes, k < 2 ^ 31 := fun k hk => by
    have := rampCounters_bound passes k hk; omega
  refine ⟨⟨linear_acc_control.up_eq 5001 0 s (by decide),
      linear_acc_control.down_eq 5000 s (by decide)⟩, ⟨?_, ?_, rampBlock_length,
      rampBlock_rising, rampBlock_falling⟩, ⟨fun _ => rfl, fun _ _ => rfl⟩, ?_, ?_, ?_, rfl, rfl⟩
  · rw [linear_acc_control.body_eq]
    simp only [List.drop_left]
  · rw [linear_acc_control.body_eq]
    simp only [List.drop_left]
    exact vactualWrites_rampEvents _ hb
  · unfold linear_acc_control
    rw [Function.iterate_succ_apply']
  · exact linear_acc_control_emitted passes s
  · rw [linear_acc_control_emitted]
    exact vactualWrites_rampEvents _ hc

end TMC2209
